import Mathlib

/-!
Verification of the version-computation engine of gh-semver.

Shallow embedding of src/internal/semver/semver.go and
src/internal/semver/convcommits.go. Go strings are modelled as List Char;
Go uint64 fields are modelled as Nat (in this program every uint64 stays far
below 2 ^ 64: parsed components are bounded to 2 ^ 32 by strconv.ParseUint
with bitSize 32, each run applies at most one increment, and commit distances
are bounded by repository size, so wrap-around is unreachable and plain Nat
arithmetic is faithful). Fallible Go functions return an explicit result
type; a Go runtime panic (nil-pointer dereference / out-of-range index) is
modelled by a dedicated crash constructor.
-/

namespace GhSemver

/-- Go regexp character class \d (ASCII digits). -/
def isDigitCh (c : Char) : Bool := c.isDigit

/-- Go regexp character class \w = [0-9A-Za-z_]. -/
def isWordCh (c : Char) : Bool := c.isAlphanum || c == '_'

/-- The class [0-9A-Za-z] used by branchStripCharacters in semver.go. -/
def isAlnumCh (c : Char) : Bool := c.isAlphanum

/-- SemVerExtended struct of semver.go (branch, commit distance, commit hash). -/
structure SemVerExtended where
  branch : List Char
  commitDistance : Nat
  commitHash : List Char
deriving DecidableEq, Repr

/-- SemVer struct of semver.go. The Go field Prefix is called pfx here. -/
structure SemVer where
  pfx : List Char
  leadingV : List Char
  major : Nat
  minor : Nat
  patch : Nat
  ext : Option SemVerExtended
deriving DecidableEq, Repr

/-- NewSemVer of semver.go. -/
def NewSemVer (major minor patch : Nat) : SemVer :=
  ⟨[], [], major, minor, patch, none⟩

/-- GreaterThan of semver.go: strict comparison of the (major, minor, patch)
triple, written exactly as the Go disjunction. -/
def GreaterThan (s other : SemVer) : Bool :=
  decide (s.major > other.major) ||
  (decide (s.major = other.major) && decide (s.minor > other.minor)) ||
  (decide (s.major = other.major) && decide (s.minor = other.minor) &&
    decide (s.patch > other.patch))

/-- SameBranch of semver.go: both sides must carry extended metadata and agree
on the branch. -/
def SameBranch (s other : SemVer) : Bool :=
  match s.ext, other.ext with
  | some a, some b => decide (a.branch = b.branch)
  | _, _ => false

/-- IncMajor of semver.go. -/
def IncMajor (s : SemVer) : SemVer :=
  ⟨s.pfx, s.leadingV, s.major + 1, 0, 0, s.ext⟩

/-- IncMinor of semver.go. -/
def IncMinor (s : SemVer) : SemVer :=
  ⟨s.pfx, s.leadingV, s.major, s.minor + 1, 0, s.ext⟩

/-- IncPatch of semver.go. -/
def IncPatch (s : SemVer) : SemVer :=
  ⟨s.pfx, s.leadingV, s.major, s.minor, s.patch + 1, s.ext⟩

/-- SetBranch of semver.go: lazily allocate ext, then set branch. -/
def SetBranch (s : SemVer) (branch : List Char) : SemVer :=
  match s.ext with
  | none => { s with ext := some ⟨branch, 0, []⟩ }
  | some e => { s with ext := some ⟨branch, e.commitDistance, e.commitHash⟩ }

/-- SetCommitDistance of semver.go. -/
def SetCommitDistance (s : SemVer) (commitDistance : Nat) : SemVer :=
  match s.ext with
  | none => { s with ext := some ⟨[], commitDistance, []⟩ }
  | some e => { s with ext := some ⟨e.branch, commitDistance, e.commitHash⟩ }

/-- SetCommitHash of semver.go: truncate to the first 7 characters when the
input has length at least 7, else store it verbatim. -/
def SetCommitHash (s : SemVer) (commitHash : List Char) : SemVer :=
  let h := if commitHash.length ≥ 7 then commitHash.take 7 else commitHash
  match s.ext with
  | none => { s with ext := some ⟨[], 0, h⟩ }
  | some e => { s with ext := some ⟨e.branch, e.commitDistance, h⟩ }

/-- branchStripCharacters.ReplaceAllString(branch, "") of semver.go: strip
every character outside [0-9A-Za-z]. -/
def stripBranch (b : List Char) : List Char := b.filter isAlnumCh

/-- Decimal digit character for d < 10 (fmt.Sprintf %d building block). -/
def digitChar (d : Nat) : Char := Char.ofNat (48 + d)

/-- Fuel-driven decimal printing, least significant digit first into acc.
Structural recursion on fuel so that the kernel can evaluate it. -/
def natDigitsAux : Nat → Nat → List Char → List Char
  | 0, _, acc => acc
  | fuel + 1, n, acc =>
    let acc1 := digitChar (n % 10) :: acc
    if n < 10 then acc1 else natDigitsAux fuel (n / 10) acc1

/-- Decimal representation of n, as produced by Go fmt.Sprintf("%d", n). -/
def natDigits (n : Nat) : List Char := natDigitsAux (n + 1) n []

/-- Print of semver.go. -/
def Print (s : SemVer) (release : Bool) : List Char :=
  let version :=
    if release || s.ext.isNone then
      s.leadingV ++ natDigits s.major ++ [ '.' ] ++ natDigits s.minor ++
        [ '.' ] ++ natDigits s.patch
    else
      match s.ext with
      | none => []
      | some e =>
        s.leadingV ++ natDigits s.major ++ [ '.' ] ++ natDigits s.minor ++
          [ '.' ] ++ natDigits s.patch ++ [ '-' ] ++ stripBranch e.branch ++
          [ '.' ] ++ natDigits e.commitDistance ++ [ '.' ] ++ e.commitHash
  if s.pfx ≠ [] then s.pfx ++ [ '-' ] ++ version else version

/-!
ParseSemVer of semver.go matches the Go regular expression

  (?P<prefix>.+-)?(?P<v>v)?(?P<major>\d+)\.(?P<minor>\d+)\.(?P<patch>\d+)
  (?P<extended>-(?P<branch>\w+)\.(?P<commit_distance>\d+)\.(?P<commit_hash>\w+))?

with Go (leftmost-first, Perl-style) semantics via FindStringSubmatch. The
matcher below is that regular expression hand-compiled for this fixed
pattern:

* A quantified character class (\d+ or \w+) that is followed by a literal
  the class cannot match ('.', '-', or the end of the pattern) matches
  exactly the maximal run (takeWhile): giving characters back on
  backtracking leaves the continuation facing a character of the same
  class, which still fails, so the maximal run is the unique candidate.
* The leading group (.+-)? is greedy: the backtracking candidates are, for
  every position i holding '-' that is preceded by at least one character
  and no newline ('.' does not match a newline), the split at i, tried
  longest first, and finally the group matching nothing.
* (v)? first tries to consume a literal v; on failure of the remainder it
  retries without consuming, which then fails at \d+, exactly as encoded
  with orElse below.
* The trailing (...)? group is tried greedily and matches nothing when its
  body fails; the body cannot succeed in more than one way for the same
  reason as the first bullet.
* FindStringSubmatch scans start positions left to right and returns the
  captures of the first position that matches, or nil if none does.
-/

/-- Captures of one match of the version pattern. pfxCap (group prefix) is
captured but never read by ParseSemVer, mirroring the Go code. -/
structure RawCaps where
  pfxCap : Option (List Char)
  vCap : Bool
  majorCap : List Char
  minorCap : List Char
  patchCap : List Char
  extCap : Option (List Char × List Char × List Char)
deriving DecidableEq, Repr

/-- Matches \d+\.\d+\.\d+ and returns (major, minor, patch, rest). -/
def matchNums (s : List Char) : Option (List Char × List Char × List Char × List Char) :=
  let maj := s.takeWhile isDigitCh
  let r1 := s.dropWhile isDigitCh
  if maj = [] then none else
  match r1 with
  | '.' :: r2 =>
    let mnr := r2.takeWhile isDigitCh
    let r3 := r2.dropWhile isDigitCh
    if mnr = [] then none else
    match r3 with
    | '.' :: r4 =>
      let pat := r4.takeWhile isDigitCh
      let r5 := r4.dropWhile isDigitCh
      if pat = [] then none else some (maj, mnr, pat, r5)
    | _ => none
  | _ => none

/-- Matches the extended group -(\w+)\.(\d+)\.(\w+), returning
(branch, commit distance digits, commit hash). -/
def matchExt (s : List Char) : Option (List Char × List Char × List Char) :=
  match s with
  | '-' :: r1 =>
    let br := r1.takeWhile isWordCh
    let r2 := r1.dropWhile isWordCh
    if br = [] then none else
    match r2 with
    | '.' :: r3 =>
      let ds := r3.takeWhile isDigitCh
      let r4 := r3.dropWhile isDigitCh
      if ds = [] then none else
      match r4 with
      | '.' :: r5 =>
        let hs := r5.takeWhile isWordCh
        if hs = [] then none else some (br, ds, hs)
      | _ => none
    | _ => none
  | _ => none

/-- Matches (v)?\d+\.\d+\.\d+(-\w+\.\d+\.\w+)? after the optional leading
group, recording the given capture for that group. -/
def matchBody (pfxCap : Option (List Char)) (s : List Char) : Option RawCaps :=
  let core := fun (hasV : Bool) (t : List Char) =>
    (matchNums t).map fun x =>
      ⟨pfxCap, hasV, x.1, x.2.1, x.2.2.1, matchExt x.2.2.2⟩
  match s with
  | 'v' :: rest => (core true rest).orElse fun _ => core false ('v' :: rest)
  | _ => core false s

/-- The candidate split of the greedy group (.+-)? at position i: defined
when position i holds '-' preceded by one or more non-newline characters. -/
def dashCandAt (s : List Char) (i : Nat) : Option (List Char × List Char) :=
  match s.get? i with
  | some '-' =>
    if 1 ≤ i ∧ (s.take i).all (fun c => c != '\n') then
      some (s.take (i + 1), s.drop (i + 1))
    else none
  | _ => none

/-- Backtracking candidates for the greedy group (.+-)?: splits at each '-'
preceded by one or more non-newline characters, longest first. -/
def dashCands (s : List Char) : List (List Char × List Char) :=
  ((List.range s.length).filterMap (dashCandAt s)).reverse

/-- First successful application of f along a list. -/
def firstSome {α β : Type} (f : α → Option β) : List α → Option β
  | [] => none
  | x :: xs => (f x).orElse fun _ => firstSome f xs

/-- One match attempt at a fixed start position: the leading group first
(greedy), then with the leading group matching nothing. -/
def matchAttempt (s : List Char) : Option RawCaps :=
  (firstSome (fun pr => matchBody (some pr.1) pr.2) (dashCands s)).orElse
    fun _ => matchBody none s

/-- FindStringSubmatch: scan start positions left to right, none if the
pattern matches nowhere. -/
def findMatch : List Char → Option RawCaps
  | [] => matchAttempt []
  | c :: rest => (matchAttempt (c :: rest)).orElse fun _ => findMatch rest

/-- Value of a decimal digit string (most significant first). -/
def digitVal (ds : List Char) : Nat := ds.foldl (fun a c => a * 10 + (c.toNat - 48)) 0

/-- strconv.ParseUint(s, 10, 32): the captures fed to it are nonempty digit
strings, and the call fails exactly when the value needs more than 32 bits. -/
def parseUint32 (ds : List Char) : Option Nat :=
  if ds = [] then none
  else if ds.all isDigitCh then
    if digitVal ds < 2 ^ 32 then some (digitVal ds) else none
  else none

/-- Outcome of ParseSemVer: a value, a Go error naming the failing component,
or a runtime panic. -/
inductive ParseResult where
  | ok : SemVer → ParseResult
  | err : String → ParseResult
  | crash : ParseResult
deriving DecidableEq, Repr

/-- ParseSemVer of semver.go. When FindStringSubmatch returns nil the Go code
indexes the nil slice (matches[re.SubexpIndex("v")]) and panics with an
out-of-range runtime error: that is the crash case. The prefix capture is
never stored in the result. -/
def ParseSemVer (input : List Char) : ParseResult :=
  match findMatch input with
  | none => .crash
  | some caps =>
    let lv : List Char := if caps.vCap then [ 'v' ] else []
    match parseUint32 caps.majorCap with
    | none => .err "major"
    | some maj =>
      match parseUint32 caps.minorCap with
      | none => .err "minor"
      | some mnr =>
        match parseUint32 caps.patchCap with
        | none => .err "patch"
        | some pat =>
          match caps.extCap with
          | none => .ok ⟨[], lv, maj, mnr, pat, none⟩
          | some (br, ds, hs) =>
            match parseUint32 ds with
            | none => .err "commit distance"
            | some dist => .ok ⟨[], lv, maj, mnr, pat, some ⟨br, dist, hs⟩⟩

/-!
Conventional-commit classifier of convcommits.go. NewConventionalCommits
compiles three regular expressions and MatchString is used on each commit
message:

  majorRegex  ^(fix|feat)(\(.+\))?!: |BREAKING CHANGE:
  minorRegex  ^feat(\(.+\))?:
  patchRegex  ^fix(\(.+\))?:

(each with a trailing space in the literal). Note that in majorRegex the ^
anchor binds only to the first alternative of the top-level alternation, so
the literal BREAKING CHANGE alternative matches anywhere in the message.
The matchers below hand-compile these fixed patterns: (fix|feat) can match
in at most one way since no string starts with both, and (\(.+\))?
backtracks over every closing parenthesis position (the dot matches ')' but
not a newline), which for a boolean MatchString is the existence check
encoded with List.any.
-/

/-- Does cont occur as a leading piece of s (List.isPrefixOf)? -/
def startsWithL (s lead : List Char) : Bool := lead.isPrefixOf s

/-- Matches \(.+\) followed by cont, at the start of s. -/
def scopeThen (cont : List Char) (s : List Char) : Bool :=
  match s with
  | '(' :: r =>
    (List.range r.length).any fun k =>
      decide (r.get? k = some ')') && decide (1 ≤ k) &&
        (r.take k).all (fun c => c != '\n') && startsWithL (r.drop (k + 1)) cont
  | _ => false

/-- Matches tok(\(.+\))?cont at the start of s. -/
def typeScopeCont (tok cont s : List Char) : Bool :=
  startsWithL s tok &&
    (scopeThen cont (s.drop tok.length) || startsWithL (s.drop tok.length) cont)

/-- Substring containment (unanchored search). -/
def containsL (needle : List Char) : List Char → Bool
  | [] => needle.isPrefixOf []
  | c :: rest => needle.isPrefixOf (c :: rest) || containsL needle rest

/-- MatchString of majorRegex: the anchored fix/feat!: alternative, or the
unanchored BREAKING CHANGE alternative. -/
def majorRe (msg : List Char) : Bool :=
  typeScopeCont ("fix").data ("!: ").data msg ||
  typeScopeCont ("feat").data ("!: ").data msg ||
  containsL ("BREAKING CHANGE: ").data msg

/-- MatchString of minorRegex. -/
def minorRe (msg : List Char) : Bool :=
  typeScopeCont ("feat").data (": ").data msg

/-- MatchString of patchRegex. -/
def patchRe (msg : List Char) : Bool :=
  typeScopeCont ("fix").data (": ").data msg

/-- VersionBump struct of convcommits.go. -/
structure VersionBump where
  major : Bool
  minor : Bool
  patch : Bool
deriving DecidableEq, Repr

/-- The empty bump (&VersionBump{} in Go). -/
def noBump : VersionBump := ⟨false, false, false⟩

/-- The classification block of traverse: run the three regexes on the
message and set the matching flags of the accumulating bump. -/
def bumpWith (b : VersionBump) (msg : List Char) : VersionBump :=
  ⟨b.major || majorRe msg, b.minor || minorRe msg, b.patch || patchRe msg⟩

/-!
Commit graph walker and resolver of convcommits.go. The go-git collaborators
are abstracted: a walk is the list of commits the Log iterator yields (hash,
message, changed files), the tag enumeration is a list of references
(short name, ref hash, annotated-tag target if the ref points at a tag
object), and the external main-branch query and HEAD short name are plain
inputs. commit.Files() is modelled as always succeeding with the stored
file list.
-/

/-- A commit as seen by the walker. -/
structure Commit where
  hash : List Char
  message : List Char
  files : List (List Char)
deriving DecidableEq, Repr

/-- The fields of ConventionalCommits that configure filtering (Go fields
filterPath and prefix; the latter is called tagPfx here). -/
structure CCConfig where
  filterPath : List Char
  tagPfx : List Char
deriving DecidableEq, Repr

/-- A tag reference: short name, ref hash, and the target commit hash when
the ref points at an annotated tag object. -/
structure TagRef where
  shortName : List Char
  refHash : List Char
  annotatedTarget : Option (List Char)
deriving DecidableEq, Repr

/-- Go map read tagRefs[h]: the zero value "" (here []) when h is absent. -/
def lookupTag (tagRefs : List (List Char × List Char)) (h : List Char) : List Char :=
  match tagRefs.find? (fun p => decide (p.1 = h)) with
  | some p => p.2
  | none => []

/-- Go map write tagRefs[k] = v: overwrite an existing key, else append. -/
def insertTag (m : List (List Char × List Char)) (k v : List Char) :
    List (List Char × List Char) :=
  if m.any (fun p => decide (p.1 = k)) then
    m.map fun p => if p.1 = k then (k, v) else p
  else m ++ [(k, v)]

/-- The tag-enumeration loop of SemVer(): keep tags whose short name starts
with the configured tag name filter (or all of them when it is empty),
resolving annotated tags to their target commit. -/
def buildTagRefs (tagPfx : List Char) (tags : List TagRef) :
    List (List Char × List Char) :=
  tags.foldl
    (fun m tr =>
      if tagPfx = [] || startsWithL tr.shortName tagPfx then
        insertTag m (tr.annotatedTarget.getD tr.refHash) tr.shortName
      else m)
    []

/-- isRelevantCommit of convcommits.go. Note the Go code gates on cc.prefix
(the tag name filter) being empty, not on filterPath; that quirk is kept. -/
def isRelevantCommit (cc : CCConfig) (c : Commit) : Bool :=
  if cc.tagPfx = [] then true
  else c.files.any fun f => startsWithL f cc.filterPath

/-- Result type of fallible Go functions: value, error, or runtime panic. -/
inductive GoResult (α : Type) where
  | ok : α → GoResult α
  | err : String → GoResult α
  | crash : GoResult α
deriving DecidableEq, Repr

/-- The commits.ForEach loop of traverse: record the hash of the first
visited commit, stop (without classifying or counting) at the first commit
whose tagRefs entry is nonempty, otherwise count it and classify it when
relevant. Returns (commitHash, commitDistance, bump, latestTag found). -/
def traverseLoop (cc : CCConfig) (tagRefs : List (List Char × List Char)) :
    List Commit → List Char → Nat → VersionBump →
      (List Char × Nat × VersionBump × Option (List Char))
  | [], ch, dist, bump => (ch, dist, bump, none)
  | c :: rest, ch, dist, bump =>
    let ch1 := if ch = [] then c.hash else ch
    let t := lookupTag tagRefs c.hash
    if t ≠ [] then (ch1, dist, bump, some t)
    else
      let bump1 := if isRelevantCommit cc c then bumpWith bump c.message else bump
      traverseLoop cc tagRefs rest ch1 (dist + 1) bump1

/-- traverse of convcommits.go over an abstract walk. A missing tag is not
an error; a tag name the parser rejects is; a tag name on which ParseSemVer
panics propagates the panic. -/
def traverse (cc : CCConfig) (tagRefs : List (List Char × List Char))
    (commits : List Commit) : GoResult (Option SemVer × VersionBump) :=
  match traverseLoop cc tagRefs commits [] 0 noBump with
  | (_, _, bump, none) => .ok (none, bump)
  | (ch, dist, bump, some t) =>
    match ParseSemVer t with
    | .crash => .crash
    | .err _ => .err "couldn't parse tag"
    | .ok v =>
      .ok (some (SetCommitHash (SetCommitDistance (SetBranch v []) dist) ch), bump)

/-- The abstract repository state feeding one SemVer() invocation. -/
structure RepoModel where
  tags : List TagRef
  mainWalk : List Commit
  branchWalk : List Commit
  mainBranch : List Char
  headShort : List Char
deriving DecidableEq, Repr

/-- SemVer() of convcommits.go (the resolver). The getMainBranch gh query
and repo.Head() are modelled as succeeding with the values stored in the
RepoModel. In Go, latestMain.SetBranch(...) and latestBranch.SetBranch(...)
are called on possibly-nil pointers: SetBranch dereferences its receiver, so
a walk that found no tag makes the program panic there, before the
detached-head check below is reached; those panics are the crash cases.
After both SetBranch calls both versions are necessarily non-nil, so the
Go nil checks picking the latest version reduce to the GreaterThan test
(the branch "tags exist in the repository, but not in ancestors of HEAD"
is unreachable in the Go code). -/
def ResolveSemVer (cc : CCConfig) (repo : RepoModel) : GoResult SemVer :=
  let tagRefs := buildTagRefs cc.tagPfx repo.tags
  if tagRefs = [] then .ok (NewSemVer 0 1 0)
  else
    match traverse cc tagRefs repo.mainWalk with
    | .crash => .crash
    | .err _ => .err "couldn't walk commits on main"
    | .ok (latestMain0, mainBump) =>
      match latestMain0 with
      | none => .crash
      | some lm0 =>
        let latestMain := SetBranch lm0 repo.mainBranch
        match traverse cc tagRefs repo.branchWalk with
        | .crash => .crash
        | .err _ => .err "couldn't walk commits on branch"
        | .ok (latestBranch0, branchBump) =>
          match latestBranch0 with
          | none => .crash
          | some lb0 =>
            let latestBranch := SetBranch lb0 repo.headShort
            let latestVersion :=
              if GreaterThan latestMain latestBranch then latestMain else latestBranch
            let newVersion :=
              if mainBump.major || branchBump.major then IncMajor latestVersion
              else if mainBump.minor || branchBump.minor then IncMinor latestVersion
              else if mainBump.patch || branchBump.patch then IncPatch latestVersion
              else latestVersion
            if SameBranch latestBranch latestMain then
              .ok { newVersion with ext := none }
            else .ok newVersion

/-! Helper lemmas: decimal printing, character classes, takeWhile/dropWhile
computation on structured strings. -/

theorem digitChar_isDigit {d : Nat} (h : d < 10) : isDigitCh (digitChar d) = true := by
  interval_cases d <;> decide

theorem digitChar_val {d : Nat} (h : d < 10) : (digitChar d).toNat - 48 = d := by
  interval_cases d <;> decide

/-- Reference decimal printer used for reasoning; natDigits computes it. -/
def natDigitsW (n : Nat) : List Char :=
  if n < 10 then [digitChar n] else natDigitsW (n / 10) ++ [digitChar (n % 10)]
termination_by n
decreasing_by exact Nat.div_lt_self (by omega) (by omega)

theorem natDigitsAux_eq :
    ∀ fuel n acc, n < 10 ^ (fuel + 1) → natDigitsAux (fuel + 1) n acc = natDigitsW n ++ acc := by
  intro fuel
  induction fuel with
  | zero =>
    intro n acc h
    have h10 : n < 10 := by simpa using h
    rw [natDigitsW, if_pos h10]
    simp [natDigitsAux, if_pos h10, Nat.mod_eq_of_lt h10]
  | succ fuel ih =>
    intro n acc h
    by_cases h10 : n < 10
    · rw [natDigitsW, if_pos h10]
      simp [natDigitsAux, if_pos h10, Nat.mod_eq_of_lt h10]
    · have hdiv : n / 10 < 10 ^ (fuel + 1) := by
        rw [Nat.div_lt_iff_lt_mul (by omega)]
        calc n < 10 ^ (fuel + 1 + 1) := h
        _ = 10 ^ (fuel + 1) * 10 := by ring
      have step : natDigitsAux (fuel + 1 + 1) n acc
          = natDigitsAux (fuel + 1) (n / 10) (digitChar (n % 10) :: acc) := by
        simp [natDigitsAux, if_neg h10]
      rw [step, ih (n / 10) (digitChar (n % 10) :: acc) hdiv]
      conv_rhs => rw [natDigitsW, if_neg h10]
      simp

theorem natDigits_eq_natDigitsW (n : Nat) : natDigits n = natDigitsW n := by
  have h : n < 10 ^ (n + 1) := by
    calc n < 10 ^ n := Nat.lt_pow_self (by omega) n
    _ ≤ 10 ^ (n + 1) := Nat.pow_le_pow_right (by omega) (by omega)
  have := natDigitsAux_eq n n [] h
  simpa [natDigits] using this

theorem natDigitsW_ne_nil (n : Nat) : natDigitsW n ≠ [] := by
  rw [natDigitsW]
  split
  · simp
  · simp

theorem natDigitsW_all_digit (n : Nat) : ∀ c ∈ natDigitsW n, isDigitCh c = true := by
  induction n using Nat.strong_induction_on with
  | _ n ih =>
    rw [natDigitsW]
    split
    · intro c hc
      rw [List.mem_singleton] at hc
      subst hc
      exact digitChar_isDigit (by omega)
    · intro c hc
      rw [List.mem_append] at hc
      rcases hc with hc | hc
      · exact ih (n / 10) (Nat.div_lt_self (by omega) (by omega)) c hc
      · rw [List.mem_singleton] at hc
        subst hc
        exact digitChar_isDigit (Nat.mod_lt _ (by omega))

theorem digitVal_append_singleton (xs : List Char) (c : Char) :
    digitVal (xs ++ [c]) = digitVal xs * 10 + (c.toNat - 48) := by
  simp [digitVal, List.foldl_append]

theorem digitVal_natDigitsW (n : Nat) : digitVal (natDigitsW n) = n := by
  induction n using Nat.strong_induction_on with
  | _ n ih =>
    rw [natDigitsW]
    split
    · rename_i h
      show digitVal ([] ++ [digitChar n]) = n
      rw [digitVal_append_singleton]
      simp [digitVal, digitChar_val h]
    · rename_i h
      rw [digitVal_append_singleton, ih (n / 10) (Nat.div_lt_self (by omega) (by omega)),
        digitChar_val (Nat.mod_lt _ (by omega))]
      omega

theorem natDigits_ne_nil (n : Nat) : natDigits n ≠ [] := by
  rw [natDigits_eq_natDigitsW]; exact natDigitsW_ne_nil n

theorem natDigits_all_digit (n : Nat) : ∀ c ∈ natDigits n, isDigitCh c = true := by
  rw [natDigits_eq_natDigitsW]; exact natDigitsW_all_digit n

theorem digitVal_natDigits (n : Nat) : digitVal (natDigits n) = n := by
  rw [natDigits_eq_natDigitsW]; exact digitVal_natDigitsW n

theorem parseUint32_of_digits {ds : List Char} (h1 : ds ≠ [])
    (h2 : ∀ c ∈ ds, isDigitCh c = true) (h3 : digitVal ds < 2 ^ 32) :
    parseUint32 ds = some (digitVal ds) := by
  rw [parseUint32, if_neg (by simpa using h1), if_pos (List.all_eq_true.mpr h2), if_pos h3]

theorem parseUint32_natDigits {n : Nat} (h : n < 2 ^ 32) :
    parseUint32 (natDigits n) = some n := by
  rw [parseUint32_of_digits (natDigits_ne_nil n) (natDigits_all_digit n)
    (by rw [digitVal_natDigits]; exact h), digitVal_natDigits]

/-- Digit characters are neither separators nor markers. -/
theorem digit_ne_dot {c : Char} (h : isDigitCh c = true) : c ≠ '.' := by
  intro hc; subst hc; simp [isDigitCh] at h

theorem digit_ne_dash {c : Char} (h : isDigitCh c = true) : c ≠ '-' := by
  intro hc; subst hc; simp [isDigitCh] at h

theorem digit_ne_v {c : Char} (h : isDigitCh c = true) : c ≠ 'v' := by
  intro hc; subst hc; simp [isDigitCh] at h

theorem digit_ne_nl {c : Char} (h : isDigitCh c = true) : c ≠ '\n' := by
  intro hc; subst hc; simp [isDigitCh] at h

theorem word_ne_dot {c : Char} (h : isWordCh c = true) : c ≠ '.' := by
  intro hc; subst hc; simp [isWordCh] at h

theorem word_ne_dash {c : Char} (h : isWordCh c = true) : c ≠ '-' := by
  intro hc; subst hc; simp [isWordCh] at h

theorem word_ne_nl {c : Char} (h : isWordCh c = true) : c ≠ '\n' := by
  intro hc; subst hc; simp [isWordCh] at h

theorem alnum_word {c : Char} (h : isAlnumCh c = true) : isWordCh c = true := by
  simp [isAlnumCh] at h; simp [isWordCh, h]

theorem digit_word {c : Char} (h : isDigitCh c = true) : isWordCh c = true := by
  simp [isDigitCh] at h
  simp [isWordCh, Char.isAlphanum, h]

theorem alnum_ne_dot {c : Char} (h : isAlnumCh c = true) : c ≠ '.' := by
  intro hc; subst hc; simp [isAlnumCh, Char.isAlphanum, Char.isAlpha, Char.isUpper,
    Char.isLower, Char.isDigit] at h

theorem takeWhile_append_all {p : Char → Bool} {xs : List Char}
    (h : ∀ c ∈ xs, p c = true) (ys : List Char) :
    (xs ++ ys).takeWhile p = xs ++ ys.takeWhile p := by
  induction xs with
  | nil => simp
  | cons c t ih =>
    rw [List.cons_append, List.takeWhile_cons_of_pos (h c (by simp)),
      ih (fun d hd => h d (by simp [hd]))]
    rfl

theorem dropWhile_append_all {p : Char → Bool} {xs : List Char}
    (h : ∀ c ∈ xs, p c = true) (ys : List Char) :
    (xs ++ ys).dropWhile p = ys.dropWhile p := by
  induction xs with
  | nil => simp
  | cons c t ih =>
    rw [List.cons_append, List.dropWhile_cons_of_pos (h c (by simp)),
      ih (fun d hd => h d (by simp [hd]))]

theorem takeWhile_head_neg {p : Char → Bool} {ys : List Char}
    (h : ∀ c, ys.head? = some c → p c = false) : ys.takeWhile p = [] := by
  cases ys with
  | nil => rfl
  | cons c t => exact List.takeWhile_cons_of_neg (by simp [h c rfl])

theorem dropWhile_head_neg {p : Char → Bool} {ys : List Char}
    (h : ∀ c, ys.head? = some c → p c = false) : ys.dropWhile p = ys := by
  cases ys with
  | nil => rfl
  | cons c t => exact List.dropWhile_cons_of_neg (by simp [h c rfl])

/-! Claim C6: increment postconditions. -/

/-- C6: for every SemVer s, IncMajor yields (s.major + 1, 0, 0), IncMinor
keeps major and yields (s.minor + 1, 0) for the rest, IncPatch changes only
patch (to s.patch + 1), and all three carry pfx, leadingV and the existing
extended value over unchanged. -/
theorem c6_increments (s : SemVer) :
    (IncMajor s).major = s.major + 1 ∧ (IncMajor s).minor = 0 ∧ (IncMajor s).patch = 0 ∧
    (IncMajor s).pfx = s.pfx ∧ (IncMajor s).leadingV = s.leadingV ∧ (IncMajor s).ext = s.ext ∧
    (IncMinor s).major = s.major ∧ (IncMinor s).minor = s.minor + 1 ∧ (IncMinor s).patch = 0 ∧
    (IncMinor s).pfx = s.pfx ∧ (IncMinor s).leadingV = s.leadingV ∧ (IncMinor s).ext = s.ext ∧
    IncPatch s = { s with patch := s.patch + 1 } :=
  ⟨rfl, rfl, rfl, rfl, rfl, rfl, rfl, rfl, rfl, rfl, rfl, rfl, rfl⟩

/-! Claim C7: GreaterThan is strict lexicographic order on the triple. -/

/-- Lexicographic strict order on (major, minor, patch), stated
independently of the code's flat disjunction. -/
def TripleLexGt (a b : SemVer) : Prop :=
  a.major > b.major ∨
    (a.major = b.major ∧ (a.minor > b.minor ∨ (a.minor = b.minor ∧ a.patch > b.patch)))

/-- C7: GreaterThan holds iff the (major, minor, patch) triple is
lexicographically greater, and on equal triples it is false both ways,
whatever the pfx, leadingV and ext fields are. -/
theorem c7_greater_than (a b : SemVer) :
    (GreaterThan a b = true ↔ TripleLexGt a b) ∧
    ((a.major, a.minor, a.patch) = (b.major, b.minor, b.patch) →
      GreaterThan a b = false ∧ GreaterThan b a = false) := by
  constructor
  · simp only [GreaterThan, TripleLexGt, Bool.or_eq_true, Bool.and_eq_true,
      decide_eq_true_eq]
    omega
  · intro h
    rw [Prod.mk.injEq, Prod.mk.injEq] at h
    simp only [GreaterThan, Bool.or_eq_false_iff, Bool.and_eq_false_iff,
      decide_eq_false_iff_not]
    omega

def svEqA : SemVer := ⟨[], [], 1, 2, 3, some ⟨("x").data, 5, ("h").data⟩⟩

def svEqB : SemVer := ⟨("p").data, [ 'v' ], 1, 2, 3, none⟩

theorem c7_witness : GreaterThan svEqA svEqB = false ∧ GreaterThan svEqB svEqA = false :=
  (c7_greater_than svEqA svEqB).2 (by decide)

/-! Claim C9: Parse discards the prefix. -/

/-- C9: every successful ParseSemVer result has an empty pfx field; the
prefix text of the input is never stored. -/
theorem c9_pfx_discarded (input : List Char) (s : SemVer)
    (h : ParseSemVer input = .ok s) : s.pfx = [] := by
  unfold ParseSemVer at h
  repeat' split at h
  all_goals first
    | (injection h with h2; subst h2; rfl)
    | (cases h)

def svC9 : SemVer := ⟨[], [ 'v' ], 1, 2, 3, none⟩

theorem c9_witness :
    ParseSemVer ("foo-v1.2.3").data = .ok svC9 ∧ svC9.pfx = [] :=
  ⟨by decide, c9_pfx_discarded ("foo-v1.2.3").data svC9 (by decide)⟩

/-! Claim C2: ParseSemVer on a non-matching input. In Go,
FindStringSubmatch returns nil and matches[re.SubexpIndex("v")] then panics
with an out-of-range index, so parsing is not total; a component that is
out of the 32-bit range does produce the named error. -/

/-- C2 (code bug evaluation): an input the version pattern does not match
makes ParseSemVer panic instead of returning a ParseError, while a matched
but out-of-range major yields the named component error. -/
theorem c2_crash_eval :
    ParseSemVer ("abc").data = .crash ∧
    ParseSemVer ([] : List Char) = .crash ∧
    ParseSemVer ("99999999999.2.3").data = .err "major" := by decide

/-! Claim C1: resolver behaviour when a walk finds no tag. In Go,
latestMain.SetBranch(mainBranch) is executed before the
"tags exist in the repository, but not in ancestors of HEAD" check; when the
main walk found no tag latestMain is nil and SetBranch dereferences it, so
the program panics and the distinct error is dead code. -/

def ccPlain : CCConfig := ⟨[], []⟩

/-- A repository with one tag that neither walk can reach. -/
def repoUnreachable : RepoModel :=
  ⟨[⟨("v1.0.0").data, ("t1").data, none⟩],
   [⟨("h1").data, ("chore: a").data, []⟩],
   [⟨("h1").data, ("chore: a").data, []⟩],
   ("main").data, ("main").data⟩

/-- C1 (code bug evaluation): with a nonempty tag index and no tagged
ancestor on either walk, the resolver panics (nil SetBranch receiver)
instead of failing with the distinct unreachable-tags error. -/
theorem c1_crash_eval :
    buildTagRefs ccPlain.tagPfx repoUnreachable.tags ≠ [] ∧
    traverse ccPlain (buildTagRefs ccPlain.tagPfx repoUnreachable.tags)
      repoUnreachable.mainWalk = .ok (none, noBump) ∧
    traverse ccPlain (buildTagRefs ccPlain.tagPfx repoUnreachable.tags)
      repoUnreachable.branchWalk = .ok (none, noBump) ∧
    ResolveSemVer ccPlain repoUnreachable = .crash := by decide

/-! Claim C8: first-release short-circuit. -/

/-- C8: whenever the (optionally prefix-filtered) tag index is empty, the
resolver returns 0.1.0 with no pfx, no leading v and no extended metadata,
for arbitrary walks (no walk is consulted). -/
theorem c8_first_release (cc : CCConfig) (repo : RepoModel)
    (h : buildTagRefs cc.tagPfx repo.tags = []) :
    ResolveSemVer cc repo = .ok (NewSemVer 0 1 0) ∧
    (NewSemVer 0 1 0).pfx = [] ∧ (NewSemVer 0 1 0).leadingV = [] ∧
    (NewSemVer 0 1 0).ext = none := by
  refine ⟨?_, rfl, rfl, rfl⟩
  simp [ResolveSemVer, h]

def repoNoTags : RepoModel :=
  ⟨[], [⟨("h1").data, ("feat: a").data, []⟩],
   [⟨("h2").data, ("fix: b").data, []⟩], ("main").data, ("dev").data⟩

theorem c8_witness :
    ResolveSemVer ccPlain repoNoTags = .ok (NewSemVer 0 1 0) ∧
    (NewSemVer 0 1 0).pfx = [] ∧ (NewSemVer 0 1 0).leadingV = [] ∧
    (NewSemVer 0 1 0).ext = none :=
  c8_first_release ccPlain repoNoTags (by decide)

/-! Claim C4: anchoring of the major rule. The first alternative of
majorRegex is anchored by ^, the BREAKING CHANGE alternative is not. -/

/-- Declarative reading of the anchored alternative
(fix|feat)(\(.+\))?!:-space at the start of the message. -/
def FixFeatBangAtStart (msg : List Char) : Prop :=
  ∃ tok rest, (tok = ("fix").data ∨ tok = ("feat").data) ∧
    (msg = tok ++ (("!: ").data ++ rest) ∨
      ∃ scope rest2, msg = tok ++ ('(' :: (scope ++ ')' :: (("!: ").data ++ rest2))) ∧
        scope ≠ [] ∧ ∀ c ∈ scope, c ≠ '\n')

/-- Declarative containment of the literal BREAKING CHANGE line anywhere in
the message. -/
def BreakingAnywhere (msg : List Char) : Prop :=
  ∃ a b, msg = a ++ (("BREAKING CHANGE: ").data ++ b)

theorem startsWithL_iff (s lead : List Char) :
    startsWithL s lead = true ↔ ∃ rest, s = lead ++ rest := by
  rw [startsWithL, List.isPrefixOf_iff_prefix]
  constructor
  · rintro ⟨t, ht⟩
    exact ⟨t, ht.symm⟩
  · rintro ⟨t, ht⟩
    exact ⟨t, ht.symm⟩

theorem scopeThen_iff (cont s : List Char) :
    scopeThen cont s = true ↔
      ∃ scope rest, s = '(' :: (scope ++ ')' :: (cont ++ rest)) ∧ scope ≠ [] ∧
        ∀ c ∈ scope, c ≠ '\n' := by
  cases s with
  | nil =>
    simp only [scopeThen]
    constructor
    · intro h; cases h
    · rintro ⟨scope, rest, h, -, -⟩; cases h
  | cons c r =>
    constructor
    · intro h
      unfold scopeThen at h
      split at h
      case h_2 => cases h
      case h_1 r' heq =>
      injection heq with hc hr
      subst hr
      rw [List.any_eq_true] at h
      obtain ⟨k, hk, hcond⟩ := h
      rw [List.mem_range] at hk
      simp only [Bool.and_eq_true, decide_eq_true_eq] at hcond
      obtain ⟨⟨⟨hget, hk1⟩, hnl⟩, hpre⟩ := hcond
      rw [startsWithL_iff] at hpre
      obtain ⟨rest, hrest⟩ := hpre
      refine ⟨r.take k, rest, ?_, ?_, ?_⟩
      · rw [hc]
        congr 1
        conv_lhs => rw [← List.take_append_drop k r]
        congr 1
        rw [List.drop_eq_getElem_cons hk, ← hrest]
        congr 1
        have := hget
        rw [List.get?_eq_getElem?, List.getElem?_eq_getElem hk] at this
        exact Option.some.inj this
      · intro hnil
        rw [← List.length_eq_zero] at hnil
        rw [List.length_take] at hnil
        omega
      · intro d hd
        have hall := List.all_eq_true.mp hnl d hd
        exact bne_iff_ne.mp hall
    · rintro ⟨scope, rest, hs, hne, hnl⟩
      injection hs with hc hr
      subst hc
      show scopeThen cont ('(' :: r) = true
      have : scopeThen cont ('(' :: r) =
          (List.range r.length).any fun k =>
            decide (r.get? k = some ')') && decide (1 ≤ k) &&
              (r.take k).all (fun c => c != '\n') && startsWithL (r.drop (k + 1)) cont := rfl
      rw [this, List.any_eq_true]
      refine ⟨scope.length, ?_, ?_⟩
      · rw [List.mem_range, hr]
        simp
      · simp only [Bool.and_eq_true, decide_eq_true_eq]
        refine ⟨⟨⟨?_, ?_⟩, ?_⟩, ?_⟩
        · rw [hr, List.get?_append_right (Nat.le_refl _)]
          simp
        · have : 0 < scope.length := List.length_pos.mpr hne
          omega
        · rw [hr, List.take_left]
          rw [List.all_eq_true]
          intro d hd
          exact bne_iff_ne.mpr (hnl d hd)
        · rw [hr]
          have hshape : scope ++ ')' :: (cont ++ rest) = (scope ++ [ ')' ]) ++ (cont ++ rest) := by
            simp
          rw [hshape]
          have hlen : scope.length + 1 = (scope ++ [ ')' ]).length := by simp
          rw [hlen, List.drop_left, startsWithL_iff]
          exact ⟨rest, rfl⟩

theorem typeScopeCont_iff (tok cont s : List Char) :
    typeScopeCont tok cont s = true ↔
      (∃ rest, s = tok ++ (cont ++ rest)) ∨
      (∃ scope rest, s = tok ++ ('(' :: (scope ++ ')' :: (cont ++ rest))) ∧ scope ≠ [] ∧
        ∀ c ∈ scope, c ≠ '\n') := by
  rw [typeScopeCont, Bool.and_eq_true, Bool.or_eq_true]
  constructor
  · rintro ⟨htok, hrest⟩
    rw [startsWithL_iff] at htok
    obtain ⟨r, hr⟩ := htok
    have hdrop : s.drop tok.length = r := by rw [hr, List.drop_left]
    rcases hrest with hscope | hdirect
    · rw [hdrop, scopeThen_iff] at hscope
      obtain ⟨scope, rest, hr2, hne, hnl⟩ := hscope
      exact Or.inr ⟨scope, rest, by rw [hr, hr2], hne, hnl⟩
    · rw [hdrop, startsWithL_iff] at hdirect
      obtain ⟨rest, hr2⟩ := hdirect
      exact Or.inl ⟨rest, by rw [hr, hr2]⟩
  · intro h
    rcases h with ⟨rest, hs⟩ | ⟨scope, rest, hs, hne, hnl⟩
    · subst hs
      refine ⟨by rw [startsWithL_iff]; exact ⟨_, rfl⟩, Or.inr ?_⟩
      rw [List.drop_left, startsWithL_iff]
      exact ⟨rest, rfl⟩
    · subst hs
      refine ⟨by rw [startsWithL_iff]; exact ⟨_, rfl⟩, Or.inl ?_⟩
      rw [List.drop_left, scopeThen_iff]
      exact ⟨scope, rest, rfl, hne, hnl⟩

theorem containsL_iff (needle hay : List Char) :
    containsL needle hay = true ↔ ∃ a b, hay = a ++ (needle ++ b) := by
  induction hay with
  | nil =>
    rw [containsL]
    constructor
    · intro h
      rw [List.isPrefixOf_iff_prefix] at h
      obtain ⟨t, ht⟩ := h
      exact ⟨[], t, ht.symm⟩
    · rintro ⟨a, b, hab⟩
      have hlen := congrArg List.length hab
      simp at hlen
      rw [List.length_eq_zero.mp (show needle.length = 0 by omega)]
      decide
  | cons c rest ih =>
    rw [containsL, Bool.or_eq_true, ih]
    constructor
    · intro h
      rcases h with h | ⟨a, b, hab⟩
      · rw [List.isPrefixOf_iff_prefix] at h
        obtain ⟨t, ht⟩ := h
        exact ⟨[], t, ht.symm⟩
      · exact ⟨c :: a, b, by rw [hab]; rfl⟩
    · rintro ⟨a, b, hab⟩
      cases a with
      | nil =>
        refine Or.inl ?_
        rw [List.isPrefixOf_iff_prefix]
        exact ⟨b, by rw [hab]; rfl⟩
      | cons a0 at' =>
        refine Or.inr ⟨at', b, ?_⟩
        have h2 := congrArg List.tail hab
        simpa using h2

/-- Spec-side reading of the major rule with both alternatives anchored at
the start of the message. -/
def specMajorAnchored (msg : List Char) : Bool :=
  typeScopeCont ("fix").data ("!: ").data msg ||
  typeScopeCont ("feat").data ("!: ").data msg ||
  startsWithL msg ("BREAKING CHANGE: ").data

/-- C4 counterexample: a message in which BREAKING CHANGE occurs only after
other text still sets the major flag in the code, though neither anchored
pattern of the claim matches it. -/
theorem c4_cex :
    (bumpWith noBump ("some text BREAKING CHANGE: api").data).major = true ∧
    specMajorAnchored ("some text BREAKING CHANGE: api").data = false := by decide

/-- C4 amended: the major flag is set exactly when the message matches the
start-anchored (fix|feat)(\(.+\))?!: alternative or contains the literal
BREAKING CHANGE line anywhere (the ^ anchor binds only to the first
alternative of the Go alternation). -/
theorem c4_major_rule (msg : List Char) :
    (bumpWith noBump msg).major = true ↔ FixFeatBangAtStart msg ∨ BreakingAnywhere msg := by
  show (noBump.major || majorRe msg) = true ↔ _
  rw [show noBump.major = false from rfl, Bool.false_or]
  rw [majorRe, Bool.or_eq_true, Bool.or_eq_true, typeScopeCont_iff, typeScopeCont_iff,
    containsL_iff]
  rw [FixFeatBangAtStart, BreakingAnywhere]
  constructor
  · intro h
    rcases h with (h | h) | h
    · rcases h with ⟨rest, hs⟩ | ⟨scope, rest, hs, hne, hnl⟩
      · exact Or.inl ⟨("fix").data, rest, Or.inl rfl, Or.inl hs⟩
      · exact Or.inl ⟨("fix").data, [], Or.inl rfl, Or.inr ⟨scope, rest, hs, hne, hnl⟩⟩
    · rcases h with ⟨rest, hs⟩ | ⟨scope, rest, hs, hne, hnl⟩
      · exact Or.inl ⟨("feat").data, rest, Or.inr rfl, Or.inl hs⟩
      · exact Or.inl ⟨("feat").data, [], Or.inr rfl, Or.inr ⟨scope, rest, hs, hne, hnl⟩⟩
    · exact Or.inr h
  · intro h
    rcases h with ⟨tok, rest, htok, hbody⟩ | h
    · rcases htok with hfix | hfeat
      · subst hfix
        rcases hbody with hs | ⟨scope, rest2, hs, hne, hnl⟩
        · exact Or.inl (Or.inl (Or.inl ⟨rest, hs⟩))
        · exact Or.inl (Or.inl (Or.inr ⟨scope, rest2, hs, hne, hnl⟩))
      · subst hfeat
        rcases hbody with hs | ⟨scope, rest2, hs, hne, hnl⟩
        · exact Or.inl (Or.inr (Or.inl ⟨rest, hs⟩))
        · exact Or.inl (Or.inr (Or.inr ⟨scope, rest2, hs, hne, hnl⟩))
    · exact Or.inr h

theorem c4_witness :
    FixFeatBangAtStart ("feat(api)!: x").data ∨ BreakingAnywhere ("feat(api)!: x").data :=
  (c4_major_rule ("feat(api)!: x").data).mp (by decide)

/-! Claim C5: walker stop and distance postcondition. -/

/-- Key membership in the tag index. -/
def isKey (m : List (List Char × List Char)) (h : List Char) : Bool :=
  m.any fun p => decide (p.1 = h)

/-- The OR-accumulation of the classifier over the relevant commits of a
walk segment (the loop body of traverse restricted to untagged commits). -/
def chainBump (cc : CCConfig) (b : VersionBump) (cs : List Commit) : VersionBump :=
  cs.foldl (fun acc c => if isRelevantCommit cc c then bumpWith acc c.message else acc) b

/-- The hash recorded by the walk: that of the first visited commit. -/
def seenHash (ch : List Char) (cs : List Commit) : List Char :=
  cs.foldl (fun h c => if h = [] then c.hash else h) ch

theorem lookupTag_eq_nil_of_not_key {m : List (List Char × List Char)} {h : List Char}
    (hk : isKey m h = false) : lookupTag m h = [] := by
  rw [lookupTag]
  have : m.find? (fun p => decide (p.1 = h)) = none := by
    rw [List.find?_eq_none]
    intro p hp
    simp only [decide_eq_true_eq]
    intro hph
    have hkey : isKey m h = true := by
      rw [isKey, List.any_eq_true]
      refine ⟨p, hp, ?_⟩
      simp [hph]
    rw [hk] at hkey
    cases hkey
  rw [this]

theorem lookupTag_ne_nil_of_key {m : List (List Char × List Char)} {h : List Char}
    (hne : ∀ p ∈ m, p.2 ≠ []) (hk : isKey m h = true) : lookupTag m h ≠ [] := by
  rw [lookupTag]
  rw [isKey, List.any_eq_true] at hk
  obtain ⟨p, hp, hph⟩ := hk
  have hsome : (m.find? fun q => decide (q.1 = h)).isSome = true := by
    rw [List.find?_isSome]
    exact ⟨p, hp, hph⟩
  obtain ⟨q, hq⟩ := Option.isSome_iff_exists.mp hsome
  rw [hq]
  exact hne q (List.mem_of_find?_eq_some hq)

theorem traverseLoop_no_tag (cc : CCConfig) (tagRefs : List (List Char × List Char)) :
    ∀ (cs : List Commit), (∀ x ∈ cs, lookupTag tagRefs x.hash = []) →
      ∀ ch dist bump, traverseLoop cc tagRefs cs ch dist bump =
        (seenHash ch cs, dist + cs.length, chainBump cc bump cs, none) := by
  intro cs
  induction cs with
  | nil => intro _ ch dist bump; rfl
  | cons c rest ih =>
    intro hall ch dist bump
    have hc : lookupTag tagRefs c.hash = [] := hall c (by simp)
    rw [traverseLoop, hc]
    simp only [ne_eq, not_true_eq_false, if_false]
    rw [ih (fun x hx => hall x (by simp [hx])) _ _ _]
    have hn : dist + 1 + rest.length = dist + (c :: rest).length := by
      simp only [List.length_cons]
      omega
    rw [hn]
    rfl

theorem traverseLoop_stop (cc : CCConfig) (tagRefs : List (List Char × List Char))
    (c : Commit) (post : List Commit) (hc : lookupTag tagRefs c.hash ≠ []) :
    ∀ (pre : List Commit), (∀ x ∈ pre, lookupTag tagRefs x.hash = []) →
      ∀ ch dist bump, traverseLoop cc tagRefs (pre ++ c :: post) ch dist bump =
        (seenHash ch (pre ++ [c]), dist + pre.length, chainBump cc bump pre,
          some (lookupTag tagRefs c.hash)) := by
  intro pre
  induction pre with
  | nil =>
    intro _ ch dist bump
    rw [List.nil_append, traverseLoop, if_pos hc]
    rfl
  | cons p rest ih =>
    intro hall ch dist bump
    have hp : lookupTag tagRefs p.hash = [] := hall p (by simp)
    rw [List.cons_append, traverseLoop, hp]
    simp only [ne_eq, not_true_eq_false, if_false]
    rw [ih (fun x hx => hall x (by simp [hx])) _ _ _]
    have hn : dist + 1 + rest.length = dist + (p :: rest).length := by
      simp only [List.length_cons]
      omega
    rw [hn]
    rfl

/-- C5: with a well-formed tag index (no empty tag names), the walk stops at
the first visited commit whose hash is a key of the index: the returned
commit distance is the number of commits strictly before it, the bump is
accumulated only over those commits (the tagged commit is never classified,
and commits after it are never visited), and the recorded hash is that of
the first visited commit. A walk that sees no key returns no version, the
accumulated bump, and no error. -/
theorem c5_walker (cc : CCConfig) (tagRefs : List (List Char × List Char))
    (hne : ∀ p ∈ tagRefs, p.2 ≠ []) :
    (∀ (pre : List Commit) (c : Commit) (post : List Commit),
      (∀ x ∈ pre, isKey tagRefs x.hash = false) → isKey tagRefs c.hash = true →
      traverse cc tagRefs (pre ++ c :: post) =
        match ParseSemVer (lookupTag tagRefs c.hash) with
        | .ok v => .ok (some (SetCommitHash (SetCommitDistance (SetBranch v []) pre.length)
            (seenHash [] (pre ++ [c]))), chainBump cc noBump pre)
        | .err _ => .err "couldn't parse tag"
        | .crash => .crash) ∧
    (∀ commits : List Commit, (∀ x ∈ commits, isKey tagRefs x.hash = false) →
      traverse cc tagRefs commits = .ok (none, chainBump cc noBump commits)) := by
  constructor
  · intro pre c post hpre hc
    have hcl : lookupTag tagRefs c.hash ≠ [] := lookupTag_ne_nil_of_key hne hc
    rw [traverse, traverseLoop_stop cc tagRefs c post hcl pre
      (fun x hx => lookupTag_eq_nil_of_not_key (hpre x hx)) [] 0 noBump]
    simp only [Nat.zero_add]
    cases ParseSemVer (lookupTag tagRefs c.hash) <;> rfl
  · intro commits hall
    rw [traverse, traverseLoop_no_tag cc tagRefs commits
      (fun x hx => lookupTag_eq_nil_of_not_key (hall x hx)) [] 0 noBump]

def cmPre : Commit := ⟨("hA").data, ("feat: add x").data, []⟩

def cmTagged : Commit := ⟨("t0").data, ("release").data, []⟩

def cmPost : Commit := ⟨("hB").data, ("fix!: boom").data, []⟩

def tagIdxC5 : List (List Char × List Char) := [(("t0").data, ("v1.2.3").data)]

theorem c5_witness :
    traverse ccPlain tagIdxC5 ([cmPre] ++ cmTagged :: [cmPost]) =
      .ok (some ⟨[], [ 'v' ], 1, 2, 3, some ⟨[], 1, ("hA").data⟩⟩,
        ⟨false, true, false⟩) := by
  have h := (c5_walker ccPlain tagIdxC5 (by decide)).1 [cmPre] cmTagged [cmPost]
    (by decide) (by decide)
  rw [h]
  decide

/-! Claim C3 support: computing the matcher on canonically printed
versions. -/

theorem takeWhile_all_pos {p : Char → Bool} {l : List Char} (h : ∀ c ∈ l, p c = true) :
    l.takeWhile p = l := by
  induction l with
  | nil => rfl
  | cons c t ih =>
    rw [List.takeWhile_cons_of_pos (h c (by simp)), ih (fun d hd => h d (by simp [hd]))]

/-- matchNums with the let bindings expanded. -/
theorem matchNums_eq (s : List Char) :
    matchNums s =
      if s.takeWhile isDigitCh = [] then none
      else
        match s.dropWhile isDigitCh with
        | '.' :: r2 =>
          if r2.takeWhile isDigitCh = [] then none
          else
            match r2.dropWhile isDigitCh with
            | '.' :: r4 =>
              if r4.takeWhile isDigitCh = [] then none
              else some (s.takeWhile isDigitCh, r2.takeWhile isDigitCh,
                r4.takeWhile isDigitCh, r4.dropWhile isDigitCh)
            | _ => none
        | _ => none := rfl

theorem matchNums_canonical {M m p rest : List Char}
    (hM1 : M ≠ []) (hM2 : ∀ c ∈ M, isDigitCh c = true)
    (hm1 : m ≠ []) (hm2 : ∀ c ∈ m, isDigitCh c = true)
    (hp1 : p ≠ []) (hp2 : ∀ c ∈ p, isDigitCh c = true)
    (hrest : ∀ c, rest.head? = some c → isDigitCh c = false) :
    matchNums (M ++ '.' :: (m ++ '.' :: (p ++ rest))) = some (M, m, p, rest) := by
  have e1 : (M ++ '.' :: (m ++ '.' :: (p ++ rest))).takeWhile isDigitCh = M := by
    rw [takeWhile_append_all hM2, List.takeWhile_cons_of_neg (by decide), List.append_nil]
  have e2 : (M ++ '.' :: (m ++ '.' :: (p ++ rest))).dropWhile isDigitCh
      = '.' :: (m ++ '.' :: (p ++ rest)) := by
    rw [dropWhile_append_all hM2, List.dropWhile_cons_of_neg (by decide)]
  have e3 : (m ++ '.' :: (p ++ rest)).takeWhile isDigitCh = m := by
    rw [takeWhile_append_all hm2, List.takeWhile_cons_of_neg (by decide), List.append_nil]
  have e4 : (m ++ '.' :: (p ++ rest)).dropWhile isDigitCh = '.' :: (p ++ rest) := by
    rw [dropWhile_append_all hm2, List.dropWhile_cons_of_neg (by decide)]
  have e5 : (p ++ rest).takeWhile isDigitCh = p := by
    rw [takeWhile_append_all hp2, takeWhile_head_neg hrest, List.append_nil]
  have e6 : (p ++ rest).dropWhile isDigitCh = rest := by
    rw [dropWhile_append_all hp2, dropWhile_head_neg hrest]
  rw [matchNums_eq, e1, e2, if_neg hM1]
  simp only [e3, e4, e5, e6, if_neg hm1, if_neg hp1]

/-- matchExt with the let bindings expanded. -/
theorem matchExt_eq (r1 : List Char) :
    matchExt ('-' :: r1) =
      (if r1.takeWhile isWordCh = [] then none
       else
         match r1.dropWhile isWordCh with
         | '.' :: r3 =>
           if r3.takeWhile isDigitCh = [] then none
           else
             match r3.dropWhile isDigitCh with
             | '.' :: r5 =>
               if r5.takeWhile isWordCh = [] then none
               else some (r1.takeWhile isWordCh, r3.takeWhile isDigitCh,
                 r5.takeWhile isWordCh)
             | _ => none
         | _ => none) := rfl

theorem matchExt_canonical {B D H : List Char}
    (hB1 : B ≠ []) (hB2 : ∀ c ∈ B, isWordCh c = true)
    (hD1 : D ≠ []) (hD2 : ∀ c ∈ D, isDigitCh c = true)
    (hH1 : H ≠ []) (hH2 : ∀ c ∈ H, isWordCh c = true) :
    matchExt ('-' :: (B ++ '.' :: (D ++ '.' :: H))) = some (B, D, H) := by
  have e1 : (B ++ '.' :: (D ++ '.' :: H)).takeWhile isWordCh = B := by
    rw [takeWhile_append_all hB2, List.takeWhile_cons_of_neg (by decide), List.append_nil]
  have e2 : (B ++ '.' :: (D ++ '.' :: H)).dropWhile isWordCh = '.' :: (D ++ '.' :: H) := by
    rw [dropWhile_append_all hB2, List.dropWhile_cons_of_neg (by decide)]
  have e3 : (D ++ '.' :: H).takeWhile isDigitCh = D := by
    rw [takeWhile_append_all hD2, List.takeWhile_cons_of_neg (by decide), List.append_nil]
  have e4 : (D ++ '.' :: H).dropWhile isDigitCh = '.' :: H := by
    rw [dropWhile_append_all hD2, List.dropWhile_cons_of_neg (by decide)]
  have e5 : H.takeWhile isWordCh = H := takeWhile_all_pos hH2
  rw [matchExt_eq, e1, e2, if_neg hB1]
  simp only [e3, e4, e5, if_neg hD1, if_neg hH1]

theorem matchNums_v_head (rest : List Char) : matchNums ('v' :: rest) = none := by
  rw [matchNums_eq, List.takeWhile_cons_of_neg (by decide), if_pos rfl]

theorem matchNums_dot_head (rest : List Char) : matchNums ('.' :: rest) = none := by
  rw [matchNums_eq, List.takeWhile_cons_of_neg (by decide), if_pos rfl]

theorem matchBody_v (pfxCap : Option (List Char)) (rest : List Char) :
    matchBody pfxCap ('v' :: rest) =
      ((matchNums rest).map fun x =>
        (⟨pfxCap, true, x.1, x.2.1, x.2.2.1, matchExt x.2.2.2⟩ : RawCaps)).orElse
        (fun _ => (matchNums ('v' :: rest)).map fun x =>
          (⟨pfxCap, false, x.1, x.2.1, x.2.2.1, matchExt x.2.2.2⟩ : RawCaps)) := rfl

theorem matchBody_not_v {c : Char} (hc : c ≠ 'v') (pfxCap : Option (List Char))
    (rest : List Char) :
    matchBody pfxCap (c :: rest) =
      (matchNums (c :: rest)).map fun x =>
        (⟨pfxCap, false, x.1, x.2.1, x.2.2.1, matchExt x.2.2.2⟩ : RawCaps) := by
  unfold matchBody
  split
  · rename_i rest' heq
    injection heq with h1 h2
    exact absurd h1 hc
  · rfl

theorem findMatch_of_attempt {w : List Char} {caps : RawCaps}
    (h : matchAttempt w = some caps) : findMatch w = some caps := by
  cases w with
  | nil => rw [findMatch]; exact h
  | cons c rest => rw [findMatch, h]; rfl

theorem dropWhile_first_neg {p : Char → Bool} :
    ∀ {B : List Char}, (∃ c ∈ B, p c = false) →
      ∃ c r, p c = false ∧ c ∈ B ∧ ∀ z, (B ++ z).dropWhile p = c :: (r ++ z) := by
  intro B
  induction B with
  | nil => rintro ⟨c, hc, -⟩; cases hc
  | cons b t ih =>
    rintro ⟨c, hc, hcp⟩
    by_cases hb : p b = true
    · have hct : ∃ c ∈ t, p c = false := by
        rcases List.mem_cons.mp hc with hcb | hmem
        · subst hcb; rw [hb] at hcp; cases hcp
        · exact ⟨c, hmem, hcp⟩
      obtain ⟨c', r, hc'p, hc'mem, hdrop⟩ := ih hct
      refine ⟨c', r, hc'p, by simp [hc'mem], fun z => ?_⟩
      rw [List.cons_append, List.dropWhile_cons_of_pos hb, hdrop z]
    · refine ⟨b, t, by simpa using hb, by simp, fun z => ?_⟩
      rw [List.cons_append, List.dropWhile_cons_of_neg hb]

/-- matchNums fails when the first character class run is followed by a
word character instead of the literal dot. -/
theorem matchNums_stuck_nondigit {B z : List Char} (hw : ∀ c ∈ B, isWordCh c = true)
    (hnd : ∃ c ∈ B, isDigitCh c = false) :
    matchNums (B ++ '.' :: z) = none := by
  obtain ⟨c, r, hcp, hcm, hdrop⟩ := dropWhile_first_neg hnd
  have hdot : c ≠ '.' := word_ne_dot (hw c hcm)
  rw [matchNums_eq, hdrop ('.' :: z)]
  by_cases hmaj : (B ++ '.' :: z).takeWhile isDigitCh = []
  · rw [if_pos hmaj]
  · rw [if_neg hmaj]
    split
    · rename_i r2 heq
      injection heq with h1 h2
      exact absurd h1 hdot
    · rfl

/-- matchNums fails when major and minor parse but the patch position holds
a non-digit. -/
theorem matchNums_patch_empty {B D H : List Char}
    (hB1 : B ≠ []) (hB2 : ∀ c ∈ B, isDigitCh c = true)
    (hD2 : ∀ c ∈ D, isDigitCh c = true)
    (hH : H.takeWhile isDigitCh = []) :
    matchNums (B ++ '.' :: (D ++ '.' :: H)) = none := by
  have e1 : (B ++ '.' :: (D ++ '.' :: H)).takeWhile isDigitCh = B := by
    rw [takeWhile_append_all hB2, List.takeWhile_cons_of_neg (by decide), List.append_nil]
  have e2 : (B ++ '.' :: (D ++ '.' :: H)).dropWhile isDigitCh = '.' :: (D ++ '.' :: H) := by
    rw [dropWhile_append_all hB2, List.dropWhile_cons_of_neg (by decide)]
  have e3 : (D ++ '.' :: H).takeWhile isDigitCh = D := by
    rw [takeWhile_append_all hD2, List.takeWhile_cons_of_neg (by decide), List.append_nil]
  have e4 : (D ++ '.' :: H).dropWhile isDigitCh = '.' :: H := by
    rw [dropWhile_append_all hD2, List.dropWhile_cons_of_neg (by decide)]
  rw [matchNums_eq, e1, e2, if_neg hB1]
  by_cases hD1 : D = []
  · simp only [e3, if_pos hD1]
  · simp only [e3, e4, if_neg hD1, hH]
    simp

/-- Does the branch capture look like an optional v followed by digits?
When it does and the hash starts with a digit, the greedy leading group can
hijack the match of a printed extended version. -/
def isVThenDigits (b : List Char) : Bool :=
  (decide (b ≠ []) && b.all isDigitCh) ||
    (match b with
     | c :: t => decide (c = 'v') && decide (t ≠ []) && t.all isDigitCh
     | [] => false)

/-- The greedy-group candidate at the extended separator fails on the
branch/distance/hash tail unless the branch is an optional v followed by
digits and the hash starts with a digit. -/
theorem extCand_fails {B D H : List Char} (pfxCap : Option (List Char))
    (hB1 : B ≠ []) (hB2 : ∀ c ∈ B, isAlnumCh c = true)
    (hD2 : ∀ c ∈ D, isDigitCh c = true)
    (hH1 : H ≠ []) (hH2 : ∀ c ∈ H, isWordCh c = true)
    (hblock : ¬(isVThenDigits B = true ∧ isDigitCh H.headI = true)) :
    matchBody pfxCap (B ++ '.' :: (D ++ '.' :: H)) = none := by
  have hBw : ∀ c ∈ B, isWordCh c = true := fun c hc => alnum_word (hB2 c hc)
  have hHtw : isDigitCh H.headI = false → H.takeWhile isDigitCh = [] := by
    intro hh
    cases H with
    | nil => rfl
    | cons h0 t => exact List.takeWhile_cons_of_neg (by simp [List.headI] at hh; simp [hh])
  obtain ⟨b0, Bt, hBcons⟩ := List.exists_cons_of_ne_nil hB1
  subst hBcons
  by_cases hv : b0 = 'v'
  · subst hv
    rw [List.cons_append, matchBody_v]
    have hfail2 : matchNums ('v' :: (Bt ++ '.' :: (D ++ '.' :: H))) = none :=
      matchNums_v_head _
    have hfail1 : matchNums (Bt ++ '.' :: (D ++ '.' :: H)) = none := by
      by_cases hBt : Bt = []
      · subst hBt
        rw [List.nil_append]
        exact matchNums_dot_head _
      · by_cases hall : ∀ c ∈ Bt, isDigitCh c = true
        · have hvd : isVThenDigits ('v' :: Bt) = true := by
            simp only [isVThenDigits, Bool.or_eq_true, Bool.and_eq_true, decide_eq_true_eq,
              ne_eq, List.all_eq_true]
            exact Or.inr ⟨⟨trivial, hBt⟩, hall⟩
          have hhead : isDigitCh H.headI = false := by
            by_contra hcontra
            simp only [Bool.not_eq_false] at hcontra
            exact hblock ⟨hvd, hcontra⟩
          exact matchNums_patch_empty hBt hall hD2 (hHtw hhead)
        · push_neg at hall
          obtain ⟨c, hcm, hcd⟩ := hall
          simp only [Bool.not_eq_true] at hcd
          exact matchNums_stuck_nondigit (fun d hd => hBw d (by simp [hd])) ⟨c, hcm, hcd⟩
    rw [hfail1, hfail2]
    rfl
  · rw [List.cons_append, matchBody_not_v hv]
    have hfail : matchNums ((b0 :: Bt) ++ '.' :: (D ++ '.' :: H)) = none := by
      by_cases hall : ∀ c ∈ b0 :: Bt, isDigitCh c = true
      · have hvd : isVThenDigits (b0 :: Bt) = true := by
          simp only [isVThenDigits, Bool.or_eq_true, Bool.and_eq_true, decide_eq_true_eq,
            ne_eq, List.all_eq_true]
          left
          exact ⟨by simp, hall⟩
        have hhead : isDigitCh H.headI = false := by
          by_contra hcontra
          simp only [Bool.not_eq_false] at hcontra
          exact hblock ⟨hvd, hcontra⟩
        exact matchNums_patch_empty (by simp) hall hD2 (hHtw hhead)
      · push_neg at hall
        obtain ⟨c, hcm, hcd⟩ := hall
        simp only [Bool.not_eq_true] at hcd
        exact matchNums_stuck_nondigit hBw ⟨c, hcm, hcd⟩
    rw [List.cons_append] at hfail
    rw [hfail]
    rfl

theorem filterMap_range_none {β : Type} {f : Nat → Option β} {n : Nat}
    (h : ∀ j, j < n → f j = none) : (List.range n).filterMap f = [] := by
  rw [List.filterMap_eq_nil]
  intro a ha
  exact h a (List.mem_range.mp ha)

theorem filterMap_range_single {β : Type} {f : Nat → Option β} {n i0 : Nat} {v : β}
    (hi : i0 < n) (hf : f i0 = some v) (hother : ∀ j, j < n → j ≠ i0 → f j = none) :
    (List.range n).filterMap f = [v] := by
  induction n with
  | zero => omega
  | succ n ih =>
    rw [List.range_succ, List.filterMap_append]
    by_cases hcase : i0 = n
    · subst hcase
      rw [filterMap_range_none (fun j hj => hother j (by omega) (by omega))]
      simp [hf]
    · have hi' : i0 < n := by omega
      rw [ih hi' (fun j hj hji => hother j (by omega) hji)]
      have hn : f n = none := hother n (by omega) (by omega)
      simp [hn]

theorem dashCandAt_none {w : List Char} {i : Nat}
    (h : ∀ c, w.get? i = some c → c ≠ '-') : dashCandAt w i = none := by
  unfold dashCandAt
  split
  · rename_i heq
    exact absurd rfl (h _ heq)
  · rfl

theorem dashCands_nil {w : List Char} (h : ∀ c ∈ w, c ≠ '-') : dashCands w = [] := by
  rw [dashCands, filterMap_range_none, List.reverse_nil]
  intro j hj
  exact dashCandAt_none fun c hc => h c (List.get?_mem hc)

theorem dashCands_single {x y : List Char} (hx : ∀ c ∈ x, c ≠ '-') (hy : ∀ c ∈ y, c ≠ '-')
    (hxe : x ≠ []) (hnl : ∀ c ∈ x, c ≠ '\n') :
    dashCands (x ++ '-' :: y) = [(x ++ [ '-' ], y)] := by
  have hxlen : 0 < x.length := List.length_pos.mpr hxe
  have hlen : (x ++ '-' :: y).length = x.length + 1 + y.length := by
    simp
    omega
  have hf : dashCandAt (x ++ '-' :: y) x.length = some (x ++ [ '-' ], y) := by
    have hget : (x ++ '-' :: y).get? x.length = some '-' := by
      rw [List.get?_append_right (Nat.le_refl _)]
      simp
    unfold dashCandAt
    rw [hget]
    rw [if_pos ?side]
    case side =>
      refine ⟨by omega, ?_⟩
      rw [List.take_left, List.all_eq_true]
      intro c hc
      exact bne_iff_ne.mpr (hnl c hc)
    have htake : (x ++ '-' :: y).take (x.length + 1) = x ++ [ '-' ] := by
      have h2 := @List.take_append Char x ('-' :: y) 1
      simpa using h2
    have hdrop : (x ++ '-' :: y).drop (x.length + 1) = y := by
      have h2 := @List.drop_append Char x ('-' :: y) 1
      simpa using h2
    rw [htake, hdrop]
    rfl
  have hother : ∀ j, j < (x ++ '-' :: y).length → j ≠ x.length →
      dashCandAt (x ++ '-' :: y) j = none := by
    intro j hj hjx
    by_cases hlt : j < x.length
    · refine dashCandAt_none fun c hc => ?_
      rw [List.get?_append hlt] at hc
      exact hx c (List.get?_mem hc)
    · have hgt : x.length + 1 ≤ j := by omega
      refine dashCandAt_none fun c hc => ?_
      rw [List.get?_append_right (by omega)] at hc
      have hj2 : j - x.length = (j - x.length - 1) + 1 := by omega
      rw [hj2] at hc
      simp only [List.get?_cons_succ] at hc
      exact hy c (List.get?_mem hc)
  rw [dashCands, filterMap_range_single (by rw [hlen]; omega) hf hother, List.reverse_singleton]

theorem firstSome_nil {α β : Type} (f : α → Option β) : firstSome f [] = none := rfl

theorem firstSome_single_none {α β : Type} (f : α → Option β) (a : α) (h : f a = none) :
    firstSome f [a] = none := by
  rw [firstSome, h]
  rfl

theorem stripBranch_all_alnum (b : List Char) : ∀ c ∈ stripBranch b, isAlnumCh c = true :=
  fun _ hc => (List.mem_filter.mp hc).2

theorem stripBranch_idem (b : List Char) : stripBranch (stripBranch b) = stripBranch b :=
  List.filter_eq_self.mpr (stripBranch_all_alnum b)

/-- No character of a canonically printed core (leading v, digits, dots) is
a dash or a newline. -/
theorem core_chars {lv A B C : List Char} (hlv : lv = [] ∨ lv = [ 'v' ])
    (hA : ∀ c ∈ A, isDigitCh c = true) (hB : ∀ c ∈ B, isDigitCh c = true)
    (hC : ∀ c ∈ C, isDigitCh c = true) :
    ∀ c ∈ lv ++ (A ++ '.' :: (B ++ '.' :: C)), c ≠ '-' ∧ c ≠ '\n' := by
  intro c hc
  simp only [List.mem_append, List.mem_cons] at hc
  rcases hc with hc | hc | hc | hc | hc | hc
  · rcases hlv with h0 | h0 <;> subst h0
    · cases hc
    · rw [List.mem_singleton] at hc
      subst hc
      exact ⟨by decide, by decide⟩
  · exact ⟨digit_ne_dash (hA c hc), digit_ne_nl (hA c hc)⟩
  · subst hc; exact ⟨by decide, by decide⟩
  · exact ⟨digit_ne_dash (hB c hc), digit_ne_nl (hB c hc)⟩
  · subst hc; exact ⟨by decide, by decide⟩
  · exact ⟨digit_ne_dash (hC c hc), digit_ne_nl (hC c hc)⟩

/-- No character of the printed extended tail (alnum branch, digits, word
hash, dots) is a dash. -/
theorem tail_chars {Br D H : List Char} (hBr : ∀ c ∈ Br, isAlnumCh c = true)
    (hD : ∀ c ∈ D, isDigitCh c = true) (hH : ∀ c ∈ H, isWordCh c = true) :
    ∀ c ∈ Br ++ '.' :: (D ++ '.' :: H), c ≠ '-' := by
  intro c hc
  simp only [List.mem_append, List.mem_cons] at hc
  rcases hc with hc | hc | hc | hc | hc
  · exact word_ne_dash (alnum_word (hBr c hc))
  · subst hc; decide
  · exact digit_ne_dash (hD c hc)
  · subst hc; decide
  · exact word_ne_dash (hH c hc)

/-- Canonical-form side conditions under which the printed string of a
SemVer survives the round trip (see c3_roundtrip). -/
def canonicalB (s : SemVer) : Bool :=
  decide (s.pfx = []) &&
  (decide (s.leadingV = []) || decide (s.leadingV = [ 'v' ])) &&
  decide (s.major < 2 ^ 32) && decide (s.minor < 2 ^ 32) && decide (s.patch < 2 ^ 32) &&
  (match s.ext with
   | none => true
   | some e =>
     decide (stripBranch e.branch ≠ []) && decide (e.commitDistance < 2 ^ 32) &&
     decide (e.commitHash ≠ []) && e.commitHash.all isWordCh &&
     !(isVThenDigits (stripBranch e.branch) && isDigitCh e.commitHash.headI))

/-- C3 counterexample: with a non-empty prefix the printed string is
accepted by Parse, but the reparse discards the prefix, so reprinting does
not reproduce the original string. -/
theorem c3_cex :
    ParseSemVer (Print ⟨("a").data, [], 1, 2, 3, none⟩ false)
      = .ok ⟨[], [], 1, 2, 3, none⟩ ∧
    Print (⟨[], [], 1, 2, 3, none⟩ : SemVer) false
      ≠ Print (⟨("a").data, [], 1, 2, 3, none⟩ : SemVer) false := by decide

theorem canonicalB_spec {s : SemVer} (h : canonicalB s = true) :
    s.pfx = [] ∧ (s.leadingV = [] ∨ s.leadingV = [ 'v' ]) ∧ s.major < 2 ^ 32 ∧
    s.minor < 2 ^ 32 ∧ s.patch < 2 ^ 32 ∧
    (∀ e, s.ext = some e →
      stripBranch e.branch ≠ [] ∧ e.commitDistance < 2 ^ 32 ∧ e.commitHash ≠ [] ∧
      (∀ c ∈ e.commitHash, isWordCh c = true) ∧
      ¬(isVThenDigits (stripBranch e.branch) = true ∧ isDigitCh e.commitHash.headI = true)) := by
  rw [canonicalB] at h
  rw [Bool.and_eq_true] at h
  obtain ⟨h1, hext⟩ := h
  rw [Bool.and_eq_true] at h1
  obtain ⟨h1, hp⟩ := h1
  rw [Bool.and_eq_true] at h1
  obtain ⟨h1, hm⟩ := h1
  rw [Bool.and_eq_true] at h1
  obtain ⟨h1, hM⟩ := h1
  rw [Bool.and_eq_true] at h1
  obtain ⟨hpfx, hlv⟩ := h1
  refine ⟨by simpa using hpfx, by simpa using hlv, by simpa using hM, by simpa using hm,
    by simpa using hp, ?_⟩
  intro e he
  rw [he] at hext
  simp only [Bool.and_eq_true, decide_eq_true_eq, Bool.not_eq_true', List.all_eq_true] at hext
  obtain ⟨⟨⟨⟨hb1, hd⟩, hh1⟩, hh2⟩, hbl⟩ := hext
  refine ⟨hb1, hd, hh1, hh2, ?_⟩
  rintro ⟨hx, hy⟩
  rcases Bool.and_eq_false_iff.mp hbl with h3 | h3
  · rw [hx] at h3; cases h3
  · rw [hy] at h3; cases h3

/-- C3 amended: the round trip holds for canonical values (empty prefix,
leadingV empty or v, components and distance below 2 ^ 32, and, when
extended metadata is present, a nonempty sanitized branch, a nonempty
word-character hash, and not a branch of shape optional-v-then-digits
combined with a digit-leading hash). -/
theorem c3_roundtrip (s : SemVer) (h : canonicalB s = true) :
    ∃ s2, ParseSemVer (Print s false) = .ok s2 ∧ Print s2 false = Print s false := by
  obtain ⟨hpfx, hlv, hM, hm, hp, hextc⟩ := canonicalB_spec h
  clear h
  obtain ⟨pfx0, lv0, M0, m0, p0, ext0⟩ := s
  simp only at hpfx hlv hM hm hp hextc
  subst hpfx
  have hA1 := natDigits_ne_nil M0
  have hA2 := natDigits_all_digit M0
  have hB1 := natDigits_ne_nil m0
  have hB2 := natDigits_all_digit m0
  have hC1 := natDigits_ne_nil p0
  have hC2 := natDigits_all_digit p0
  cases ext0 with
  | none =>
    have hw : Print ⟨[], lv0, M0, m0, p0, none⟩ false
        = lv0 ++ (natDigits M0 ++ '.' :: (natDigits m0 ++ '.' :: natDigits p0)) := by
      simp [Print, List.append_assoc]
    have hnums : matchNums (natDigits M0 ++ '.' :: (natDigits m0 ++ '.' :: natDigits p0))
        = some (natDigits M0, natDigits m0, natDigits p0, []) := by
      have hr : ∀ c : Char, ([] : List Char).head? = some c → isDigitCh c = false := by
        intro c hc; cases hc
      have h2 := matchNums_canonical hA1 hA2 hB1 hB2 hC1 hC2 hr
      simpa using h2
    have hbody : matchBody none
        (lv0 ++ (natDigits M0 ++ '.' :: (natDigits m0 ++ '.' :: natDigits p0)))
        = some ⟨none, decide (lv0 = [ 'v' ]), natDigits M0, natDigits m0, natDigits p0, none⟩ := by
      rcases hlv with h0 | h0 <;> subst h0
      · rw [List.nil_append]
        obtain ⟨a0, A', hA⟩ := List.exists_cons_of_ne_nil hA1
        have ha0 : a0 ≠ 'v' := digit_ne_v (hA2 a0 (by rw [hA]; simp))
        rw [hA, List.cons_append, matchBody_not_v ha0, ← List.cons_append, ← hA, hnums]
        rfl
      · rw [List.singleton_append, matchBody_v, hnums]
        rfl
    have hnd : ∀ c ∈ lv0 ++ (natDigits M0 ++ '.' :: (natDigits m0 ++ '.' :: natDigits p0)),
        c ≠ '-' := fun c hc => (core_chars hlv hA2 hB2 hC2 c hc).1
    have hatt : matchAttempt
        (lv0 ++ (natDigits M0 ++ '.' :: (natDigits m0 ++ '.' :: natDigits p0)))
        = some ⟨none, decide (lv0 = [ 'v' ]), natDigits M0, natDigits m0, natDigits p0, none⟩ := by
      rw [matchAttempt, dashCands_nil hnd, firstSome_nil]
      exact hbody
    refine ⟨⟨[], lv0, M0, m0, p0, none⟩, ?_, rfl⟩
    rw [hw]
    unfold ParseSemVer
    rw [findMatch_of_attempt hatt]
    simp only [parseUint32_natDigits hM, parseUint32_natDigits hm, parseUint32_natDigits hp]
    rcases hlv with h0 | h0 <;> subst h0 <;> rfl
  | some e =>
    obtain ⟨br, dist, hash⟩ := e
    obtain ⟨hBr1, hdist, hH1, hH2, hblock2⟩ := hextc ⟨br, dist, hash⟩ rfl
    simp only at hBr1 hdist hH1 hH2 hblock2
    have hD1 := natDigits_ne_nil dist
    have hD2 := natDigits_all_digit dist
    have hBr2 := stripBranch_all_alnum br
    have hBrW : ∀ c ∈ stripBranch br, isWordCh c = true := fun c hc => alnum_word (hBr2 c hc)
    have hw : Print ⟨[], lv0, M0, m0, p0, some ⟨br, dist, hash⟩⟩ false
        = lv0 ++ (natDigits M0 ++ '.' :: (natDigits m0 ++ '.' :: (natDigits p0 ++
            '-' :: (stripBranch br ++ '.' :: (natDigits dist ++ '.' :: hash))))) := by
      simp [Print, List.append_assoc]
    have hw2 : (lv0 ++ (natDigits M0 ++ '.' :: (natDigits m0 ++ '.' :: (natDigits p0 ++
            '-' :: (stripBranch br ++ '.' :: (natDigits dist ++ '.' :: hash))))))
        = (lv0 ++ (natDigits M0 ++ '.' :: (natDigits m0 ++ '.' :: natDigits p0))) ++
            '-' :: (stripBranch br ++ '.' :: (natDigits dist ++ '.' :: hash)) := by
      simp [List.append_assoc]
    have hxd : ∀ c ∈ lv0 ++ (natDigits M0 ++ '.' :: (natDigits m0 ++ '.' :: natDigits p0)),
        c ≠ '-' := fun c hc => (core_chars hlv hA2 hB2 hC2 c hc).1
    have hxnl : ∀ c ∈ lv0 ++ (natDigits M0 ++ '.' :: (natDigits m0 ++ '.' :: natDigits p0)),
        c ≠ '\n' := fun c hc => (core_chars hlv hA2 hB2 hC2 c hc).2
    have hyd : ∀ c ∈ stripBranch br ++ '.' :: (natDigits dist ++ '.' :: hash), c ≠ '-' :=
      tail_chars hBr2 hD2 hH2
    have hxe : lv0 ++ (natDigits M0 ++ '.' :: (natDigits m0 ++ '.' :: natDigits p0)) ≠ [] := by
      simp
    have hdc : dashCands (lv0 ++ (natDigits M0 ++ '.' :: (natDigits m0 ++ '.' :: (natDigits p0 ++
            '-' :: (stripBranch br ++ '.' :: (natDigits dist ++ '.' :: hash)))))) =
        [((lv0 ++ (natDigits M0 ++ '.' :: (natDigits m0 ++ '.' :: natDigits p0))) ++ [ '-' ],
          stripBranch br ++ '.' :: (natDigits dist ++ '.' :: hash))] := by
      rw [hw2]
      exact dashCands_single hxd hyd hxe hxnl
    have hcand : matchBody
        (some ((lv0 ++ (natDigits M0 ++ '.' :: (natDigits m0 ++ '.' :: natDigits p0))) ++ [ '-' ]))
        (stripBranch br ++ '.' :: (natDigits dist ++ '.' :: hash)) = none :=
      extCand_fails _ hBr1 hBr2 hD2 hH1 hH2 hblock2
    have hnums : matchNums (natDigits M0 ++ '.' :: (natDigits m0 ++ '.' :: (natDigits p0 ++
            '-' :: (stripBranch br ++ '.' :: (natDigits dist ++ '.' :: hash)))))
        = some (natDigits M0, natDigits m0, natDigits p0,
            '-' :: (stripBranch br ++ '.' :: (natDigits dist ++ '.' :: hash))) := by
      refine matchNums_canonical hA1 hA2 hB1 hB2 hC1 hC2 ?_
      intro c hc
      injection hc with hc2
      subst hc2
      decide
    have hext : matchExt ('-' :: (stripBranch br ++ '.' :: (natDigits dist ++ '.' :: hash)))
        = some (stripBranch br, natDigits dist, hash) :=
      matchExt_canonical hBr1 hBrW hD1 hD2 hH1 hH2
    have hbody : matchBody none (lv0 ++ (natDigits M0 ++ '.' :: (natDigits m0 ++ '.' ::
            (natDigits p0 ++ '-' :: (stripBranch br ++ '.' :: (natDigits dist ++ '.' :: hash))))))
        = some ⟨none, decide (lv0 = [ 'v' ]), natDigits M0, natDigits m0, natDigits p0,
            some (stripBranch br, natDigits dist, hash)⟩ := by
      rcases hlv with h0 | h0 <;> subst h0
      · rw [List.nil_append]
        obtain ⟨a0, A', hA⟩ := List.exists_cons_of_ne_nil hA1
        have ha0 : a0 ≠ 'v' := digit_ne_v (hA2 a0 (by rw [hA]; simp))
        rw [hA, List.cons_append, matchBody_not_v ha0, ← List.cons_append, ← hA, hnums]
        simp [hext]
      · rw [List.singleton_append, matchBody_v, hnums]
        simp [hext]
    have hatt : matchAttempt (lv0 ++ (natDigits M0 ++ '.' :: (natDigits m0 ++ '.' ::
            (natDigits p0 ++ '-' :: (stripBranch br ++ '.' :: (natDigits dist ++ '.' :: hash))))))
        = some ⟨none, decide (lv0 = [ 'v' ]), natDigits M0, natDigits m0, natDigits p0,
            some (stripBranch br, natDigits dist, hash)⟩ := by
      rw [matchAttempt, hdc]
      have hfs : firstSome (fun pr : List Char × List Char => matchBody (some pr.1) pr.2)
          [((lv0 ++ (natDigits M0 ++ '.' :: (natDigits m0 ++ '.' :: natDigits p0))) ++ [ '-' ],
            stripBranch br ++ '.' :: (natDigits dist ++ '.' :: hash))] = none := by
        rw [firstSome]
        simp only [hcand]
        rfl
      rw [hfs]
      exact hbody
    refine ⟨⟨[], lv0, M0, m0, p0, some ⟨stripBranch br, dist, hash⟩⟩, ?_, ?_⟩
    · rw [hw]
      unfold ParseSemVer
      rw [findMatch_of_attempt hatt]
      simp only [parseUint32_natDigits hM, parseUint32_natDigits hm, parseUint32_natDigits hp,
        parseUint32_natDigits hdist]
      rcases hlv with h0 | h0 <;> subst h0 <;> rfl
    · rw [hw]
      have hw3 : Print ⟨[], lv0, M0, m0, p0, some ⟨stripBranch br, dist, hash⟩⟩ false
          = lv0 ++ (natDigits M0 ++ '.' :: (natDigits m0 ++ '.' :: (natDigits p0 ++
              '-' :: (stripBranch (stripBranch br) ++ '.' :: (natDigits dist ++ '.' :: hash))))) := by
        simp [Print, List.append_assoc]
      rw [hw3, stripBranch_idem]

def svC3 : SemVer :=
  ⟨[], [ 'v' ], 1, 2, 3, some ⟨("feature/x").data, 4, ("abcdef1").data⟩⟩

theorem c3_witness :
    ∃ s2, ParseSemVer (Print svC3 false) = .ok s2 ∧ Print s2 false = Print svC3 false :=
  c3_roundtrip svC3 (by decide)

/-! Claim C10 support: every numeric capture of any match is the digit run
read at some position of the input, and on inputs whose digit runs all have
small values every such run parses within 32 bits. -/

/-- d is the digit run read at some position of w. -/
def DigitRunAt (w d : List Char) : Prop := ∃ u, u <:+ w ∧ d = u.takeWhile isDigitCh

theorem DigitRunAt.monoRun {u w d : List Char} (hs : u <:+ w) (h : DigitRunAt u d) :
    DigitRunAt w d := by
  obtain ⟨x, hx, hd⟩ := h
  exact ⟨x, hx.trans hs, hd⟩

/-- The numeric captures (the ones fed to ParseUint) of a capture record are
nonempty digit runs read from w. -/
def GoodCaps (w : List Char) (caps : RawCaps) : Prop :=
  (caps.majorCap ≠ [] ∧ DigitRunAt w caps.majorCap) ∧
  (caps.minorCap ≠ [] ∧ DigitRunAt w caps.minorCap) ∧
  (caps.patchCap ≠ [] ∧ DigitRunAt w caps.patchCap) ∧
  (∀ br ds hs, caps.extCap = some (br, ds, hs) → ds ≠ [] ∧ DigitRunAt w ds)

theorem GoodCaps.monoCaps {u w : List Char} {caps : RawCaps} (hs : u <:+ w)
    (h : GoodCaps u caps) : GoodCaps w caps := by
  obtain ⟨⟨h1, h1r⟩, ⟨h2, h2r⟩, ⟨h3, h3r⟩, h4⟩ := h
  exact ⟨⟨h1, h1r.monoRun hs⟩, ⟨h2, h2r.monoRun hs⟩, ⟨h3, h3r.monoRun hs⟩,
    fun br ds hs2 he => ⟨(h4 br ds hs2 he).1, (h4 br ds hs2 he).2.monoRun hs⟩⟩

theorem matchNums_caps {t a b c r : List Char} (h : matchNums t = some (a, b, c, r)) :
    a ≠ [] ∧ b ≠ [] ∧ c ≠ [] ∧ DigitRunAt t a ∧ DigitRunAt t b ∧ DigitRunAt t c ∧ r <:+ t := by
  rw [matchNums_eq] at h
  split at h
  · cases h
  · rename_i hmaj
    split at h
    case h_2 => cases h
    case h_1 x r2 heq =>
      split at h
      · cases h
      · rename_i hmnr
        split at h
        case h_2 => cases h
        case h_1 x2 r4 heq2 =>
          split at h
          · cases h
          · rename_i hpat
            injection h with h2
            have hr2 : r2 <:+ t := by
              have hd : t.dropWhile isDigitCh <:+ t := List.dropWhile_suffix _
              rw [heq] at hd
              exact (List.suffix_cons '.' r2).trans hd
            have hr4 : r4 <:+ r2 := by
              have hd : r2.dropWhile isDigitCh <:+ r2 := List.dropWhile_suffix _
              rw [heq2] at hd
              exact (List.suffix_cons '.' r4).trans hd
            obtain ⟨ha, hb2, hc2, hr⟩ : a = t.takeWhile isDigitCh ∧
                b = r2.takeWhile isDigitCh ∧ c = r4.takeWhile isDigitCh ∧
                r = r4.dropWhile isDigitCh := by
              have h3 := h2.symm
              rw [Prod.mk.injEq, Prod.mk.injEq, Prod.mk.injEq] at h3
              exact ⟨h3.1, h3.2.1, h3.2.2.1, h3.2.2.2⟩
            subst ha; subst hb2; subst hc2; subst hr
            refine ⟨hmaj, hmnr, hpat, ⟨t, List.suffix_refl t, rfl⟩,
              ⟨r2, hr2, rfl⟩, ⟨r4, hr4.trans hr2, rfl⟩,
              (List.dropWhile_suffix _).trans (hr4.trans hr2)⟩

theorem matchExt_none_of_not_dash {c : Char} (hc : c ≠ '-') (r : List Char) :
    matchExt (c :: r) = none := by
  unfold matchExt
  split
  · rename_i r1 heq
    injection heq with h1 h2
    exact absurd h1 hc
  · rfl

theorem matchExt_caps {t : List Char} {br ds hs : List Char}
    (h : matchExt t = some (br, ds, hs)) : ds ≠ [] ∧ DigitRunAt t ds := by
  cases t with
  | nil => cases h
  | cons c r =>
    by_cases hc : c = '-'
    · subst hc
      rw [matchExt_eq] at h
      split at h
      · cases h
      · rename_i hbr
        split at h
        next x r3 heq =>
          split at h
          · cases h
          · rename_i hds
            split at h
            next x2 r5 heq2 =>
              split at h
              · cases h
              · injection h with h2
                obtain ⟨hb, hd, hh⟩ : br = r.takeWhile isWordCh ∧
                    ds = r3.takeWhile isDigitCh ∧ hs = r5.takeWhile isWordCh := by
                  have h3 := h2.symm
                  rw [Prod.mk.injEq, Prod.mk.injEq] at h3
                  exact ⟨h3.1, h3.2.1, h3.2.2⟩
                subst hd
                have hr3 : r3 <:+ r := by
                  have hd2 : r.dropWhile isWordCh <:+ r := List.dropWhile_suffix _
                  rw [heq] at hd2
                  exact (List.suffix_cons '.' r3).trans hd2
                exact ⟨hds, ⟨r3, hr3.trans (List.suffix_cons '-' r), rfl⟩⟩
            next => cases h
        next => cases h
    · rw [matchExt_none_of_not_dash hc] at h
      cases h

theorem matchBody_caps {pfxCap : Option (List Char)} {s : List Char} {caps : RawCaps}
    (h : matchBody pfxCap s = some caps) : GoodCaps s caps := by
  have hnums : ∀ (t : List Char) (hasV : Bool), t <:+ s →
      ((matchNums t).map fun x =>
        (⟨pfxCap, hasV, x.1, x.2.1, x.2.2.1, matchExt x.2.2.2⟩ : RawCaps)) = some caps →
      GoodCaps s caps := by
    intro t hasV hts hmap
    cases hm : matchNums t with
    | none => rw [hm] at hmap; cases hmap
    | some x =>
      obtain ⟨a, b, c, r⟩ := x
      rw [hm] at hmap
      injection hmap with h2
      obtain ⟨hA, hB, hC, hAr, hBr, hCr, hrs⟩ := matchNums_caps hm
      subst h2
      refine ⟨⟨hA, hAr.monoRun hts⟩, ⟨hB, hBr.monoRun hts⟩, ⟨hC, hCr.monoRun hts⟩, ?_⟩
      intro br ds hs he
      simp only at he
      obtain ⟨hds, hdr⟩ := matchExt_caps he
      exact ⟨hds, (hdr.monoRun hrs).monoRun hts⟩
  cases s with
  | nil =>
    rw [show matchBody pfxCap [] =
      ((matchNums []).map fun x =>
        (⟨pfxCap, false, x.1, x.2.1, x.2.2.1, matchExt x.2.2.2⟩ : RawCaps)) from rfl] at h
    exact hnums [] false (List.suffix_refl _) h
  | cons c rest =>
    by_cases hc : c = 'v'
    · subst hc
      rw [matchBody_v] at h
      cases h1 : (matchNums rest).map
          (fun x => (⟨pfxCap, true, x.1, x.2.1, x.2.2.1, matchExt x.2.2.2⟩ : RawCaps)) with
      | some y =>
        rw [h1] at h
        have hy : y = caps := by
          have h3 : some y = some caps := h
          exact Option.some.inj h3
        subst hy
        exact hnums rest true (List.suffix_cons 'v' rest) h1
      | none =>
        rw [h1] at h
        have h2 : ((matchNums ('v' :: rest)).map fun x =>
            (⟨pfxCap, false, x.1, x.2.1, x.2.2.1, matchExt x.2.2.2⟩ : RawCaps)) = some caps := h
        exact hnums ('v' :: rest) false (List.suffix_refl _) h2
    · rw [matchBody_not_v hc] at h
      exact hnums (c :: rest) false (List.suffix_refl _) h

theorem firstSome_some {α β : Type} {f : α → Option β} {l : List α} {b : β}
    (h : firstSome f l = some b) : ∃ a ∈ l, f a = some b := by
  induction l with
  | nil => cases h
  | cons x xs ih =>
    rw [firstSome] at h
    cases hx : f x with
    | some y =>
      rw [hx] at h
      have hy : y = b := Option.some.inj h
      subst hy
      exact ⟨x, by simp, hx⟩
    | none =>
      rw [hx] at h
      have h2 : firstSome f xs = some b := h
      obtain ⟨a, ha, hfa⟩ := ih h2
      exact ⟨a, by simp [ha], hfa⟩

theorem dashCands_snd_suffix {s : List Char} {pr : List Char × List Char}
    (h : pr ∈ dashCands s) : pr.2 <:+ s := by
  obtain ⟨p1, p2⟩ := pr
  rw [dashCands, List.mem_reverse, List.mem_filterMap] at h
  obtain ⟨i, hi, hf⟩ := h
  unfold dashCandAt at hf
  split at hf
  · split at hf
    · injection hf with hf2
      have hp2 : p2 = s.drop (i + 1) := by
        have h3 := hf2.symm
        rw [Prod.mk.injEq] at h3
        exact h3.2
      rw [hp2]
      exact List.drop_suffix _ _
    · cases hf
  · cases hf

theorem matchAttempt_caps {s : List Char} {caps : RawCaps}
    (h : matchAttempt s = some caps) : GoodCaps s caps := by
  rw [matchAttempt] at h
  cases hfs : firstSome (fun pr => matchBody (some pr.1) pr.2) (dashCands s) with
  | some caps2 =>
    rw [hfs] at h
    have h2 : caps2 = caps := Option.some.inj h
    subst h2
    obtain ⟨pr, hmem, hpr⟩ := firstSome_some hfs
    exact (matchBody_caps hpr).monoCaps (dashCands_snd_suffix hmem)
  | none =>
    rw [hfs] at h
    have h2 : matchBody none s = some caps := h
    exact matchBody_caps h2

theorem findMatch_caps {w : List Char} {caps : RawCaps}
    (h : findMatch w = some caps) : GoodCaps w caps := by
  induction w with
  | nil =>
    rw [findMatch] at h
    exact matchAttempt_caps h
  | cons c rest ih =>
    rw [findMatch] at h
    cases ha : matchAttempt (c :: rest) with
    | some caps2 =>
      rw [ha] at h
      have h2 : caps2 = caps := Option.some.inj h
      subst h2
      exact matchAttempt_caps ha
    | none =>
      rw [ha] at h
      have h2 : findMatch rest = some caps := h
      exact (ih h2).monoCaps (List.suffix_cons c rest)

theorem digitValFrom (y : List Char) :
    ∀ a : Nat, y.foldl (fun acc c => acc * 10 + (c.toNat - 48)) a
      = a * 10 ^ y.length + digitVal y := by
  induction y with
  | nil => intro a; simp [digitVal]
  | cons c t ih =>
    intro a
    rw [List.foldl_cons, ih]
    have h2 : digitVal (c :: t) = (c.toNat - 48) * 10 ^ t.length + digitVal t := by
      rw [digitVal, List.foldl_cons]
      have h3 := ih (0 * 10 + (c.toNat - 48))
      simpa [digitVal] using h3
    rw [h2, List.length_cons]
    ring

theorem digitVal_append (x y : List Char) :
    digitVal (x ++ y) = digitVal x * 10 ^ y.length + digitVal y := by
  rw [digitVal, List.foldl_append, digitValFrom]
  rfl

theorem digitVal_suffix_le {u R : List Char} (h : u <:+ R) : digitVal u ≤ digitVal R := by
  obtain ⟨t, ht⟩ := h
  rw [← ht, digitVal_append]
  exact Nat.le_add_left _ _

/-- Every digit run read at any position of w has value below bound. -/
def TWBound (bound : Nat) (w : List Char) : Prop :=
  ∀ u, u <:+ w → digitVal (u.takeWhile isDigitCh) < bound

theorem suffix_split {u x y : List Char} (h : u <:+ x ++ y) :
    u <:+ y ∨ ∃ u1, u = u1 ++ y ∧ u1 <:+ x := by
  obtain ⟨t, ht⟩ := h
  rcases List.append_eq_append_iff.mp ht with ⟨a', ha1, ha2⟩ | ⟨c', hc1, hc2⟩
  · exact Or.inr ⟨a', ha2, ⟨t, ha1.symm⟩⟩
  · exact Or.inl ⟨c', hc2.symm⟩

theorem twBound_all_neg {bound : Nat} {w : List Char} (h0 : 0 < bound)
    (h : ∀ c ∈ w, isDigitCh c = false) : TWBound bound w := by
  intro u hu
  have ht : u.takeWhile isDigitCh = [] := by
    cases u with
    | nil => rfl
    | cons c t =>
      have hc : c ∈ w := hu.subset (by simp)
      exact List.takeWhile_cons_of_neg (by simp [h c hc])
  rw [ht]
  simpa [digitVal] using h0

theorem twBound_cons_neg {bound : Nat} {c : Char} {w : List Char} (h0 : 0 < bound)
    (hc : isDigitCh c = false) (hw : TWBound bound w) : TWBound bound (c :: w) := by
  intro u hu
  rcases List.suffix_cons_iff.mp hu with h1 | h1
  · subst h1
    rw [List.takeWhile_cons_of_neg (by simp [hc])]
    simpa [digitVal] using h0
  · exact hw u h1

theorem twBound_append_digits {bound : Nat} {R w : List Char} (h0 : 0 < bound)
    (hR : ∀ c ∈ R, isDigitCh c = true) (hval : digitVal R < bound)
    (hhead : ∀ c, w.head? = some c → isDigitCh c = false)
    (hw : TWBound bound w) : TWBound bound (R ++ w) := by
  intro u hu
  rcases suffix_split hu with h1 | ⟨u1, hu1, hu1s⟩
  · exact hw u h1
  · subst hu1
    have hu1d : ∀ c ∈ u1, isDigitCh c = true := fun c hc => hR c (hu1s.subset hc)
    rw [takeWhile_append_all hu1d, takeWhile_head_neg hhead, List.append_nil]
    calc digitVal u1 ≤ digitVal R := digitVal_suffix_le hu1s
    _ < bound := hval

theorem twBound_append_neg {bound : Nat} {a w : List Char} (h0 : 0 < bound)
    (ha : ∀ c ∈ a, isDigitCh c = false) (hw : TWBound bound w) : TWBound bound (a ++ w) := by
  induction a with
  | nil => exact hw
  | cons c t ih =>
    exact twBound_cons_neg h0 (ha c (by simp))
      (ih (fun d hd => ha d (by simp [hd])))

theorem head_neg_of_all {w : List Char} (h : ∀ c ∈ w, isDigitCh c = false) :
    ∀ c, w.head? = some c → isDigitCh c = false := by
  intro c hc
  cases w with
  | nil => cases hc
  | cons x t =>
    injection hc with h2
    subst h2
    exact h x (by simp)

theorem findMatch_isSome_of_suffix {y w : List Char} (hs : y <:+ w)
    (hy : (matchAttempt y).isSome = true) : (findMatch w).isSome = true := by
  induction w with
  | nil =>
    have hn : y = [] := List.suffix_nil.mp hs
    subst hn
    rw [findMatch]
    exact hy
  | cons c rest ih =>
    rw [findMatch]
    cases hx : matchAttempt (c :: rest) with
    | some z => rfl
    | none =>
      rcases List.suffix_cons_iff.mp hs with h1 | h1
      · subst h1
        rw [hx] at hy
        cases hy
      · exact ih h1

/-- Spec-side check that a string is exactly of the shape \d+\.\d+\.\d+
(a version-pattern core). -/
def versionLitB (w : List Char) : Bool :=
  match w.dropWhile isDigitCh with
  | '.' :: r1 =>
    decide (w.takeWhile isDigitCh ≠ []) &&
      (match r1.dropWhile isDigitCh with
       | '.' :: r2 =>
         decide (r1.takeWhile isDigitCh ≠ []) && decide (r2 ≠ []) && r2.all isDigitCh
       | _ => false)
  | _ => false

/-- C10 counterexample: this input contains the version pattern as a
substring, but Parse fails with a major overflow error because the
leftmost-first match greedily captures the whole leading digit run. -/
theorem c10_cex :
    ("99999999999.2.3").data = ("9999999999").data ++ ("9.2.3").data ∧
    versionLitB ("9.2.3").data = true ∧
    ParseSemVer ("99999999999.2.3").data = .err "major" := by decide

/-- C10 amended: matching is unanchored — surrounding a canonically printed
release-style version (empty prefix, leadingV empty or v, components below
2 ^ 32, no extended metadata) with arbitrary digit-free text on either side
still parses successfully; but an arbitrary string containing the version
pattern may fail, because the leftmost-first match can capture an
out-of-range component (see the counterexample). -/
theorem c10_unanchored (a b : List Char) (s : SemVer)
    (ha : ∀ c ∈ a, isDigitCh c = false) (hb : ∀ c ∈ b, isDigitCh c = false)
    (hcanon : canonicalB s = true) (hx : s.ext = none) :
    ∃ v, ParseSemVer (a ++ Print s false ++ b) = .ok v := by
  obtain ⟨hpfx, hlv, hM, hm, hp, -⟩ := canonicalB_spec hcanon
  obtain ⟨pfx0, lv0, M0, m0, p0, ext0⟩ := s
  simp only at hpfx hlv hM hm hp hx
  subst hpfx
  subst hx
  have hA1 := natDigits_ne_nil M0
  have hA2 := natDigits_all_digit M0
  have hB1 := natDigits_ne_nil m0
  have hB2 := natDigits_all_digit m0
  have hC1 := natDigits_ne_nil p0
  have hC2 := natDigits_all_digit p0
  have hbh : ∀ c, b.head? = some c → isDigitCh c = false := head_neg_of_all hb
  have hw : a ++ Print ⟨[], lv0, M0, m0, p0, none⟩ false ++ b
      = a ++ (lv0 ++ (natDigits M0 ++ '.' :: (natDigits m0 ++ '.' :: (natDigits p0 ++ b)))) := by
    simp [Print, List.append_assoc]
  rw [hw]
  have hnums : matchNums (natDigits M0 ++ '.' :: (natDigits m0 ++ '.' :: (natDigits p0 ++ b)))
      = some (natDigits M0, natDigits m0, natDigits p0, b) :=
    matchNums_canonical hA1 hA2 hB1 hB2 hC1 hC2 hbh
  have hbody : (matchBody none
      (lv0 ++ (natDigits M0 ++ '.' :: (natDigits m0 ++ '.' :: (natDigits p0 ++ b))))).isSome
      = true := by
    rcases hlv with h0 | h0 <;> subst h0
    · rw [List.nil_append]
      obtain ⟨a0, A', hA⟩ := List.exists_cons_of_ne_nil hA1
      have ha0 : a0 ≠ 'v' := digit_ne_v (hA2 a0 (by rw [hA]; simp))
      rw [hA, List.cons_append, matchBody_not_v ha0, ← List.cons_append, ← hA, hnums]
      rfl
    · rw [List.singleton_append, matchBody_v, hnums]
      rfl
  have hatt : (matchAttempt
      (lv0 ++ (natDigits M0 ++ '.' :: (natDigits m0 ++ '.' :: (natDigits p0 ++ b))))).isSome
      = true := by
    rw [matchAttempt]
    cases hfs : firstSome (fun pr => matchBody (some pr.1) pr.2)
        (dashCands (lv0 ++ (natDigits M0 ++ '.' :: (natDigits m0 ++ '.' ::
          (natDigits p0 ++ b))))) with
    | some z => rfl
    | none => exact hbody
  have hfindS : (findMatch (a ++ (lv0 ++ (natDigits M0 ++ '.' :: (natDigits m0 ++ '.' ::
      (natDigits p0 ++ b)))))).isSome = true :=
    findMatch_isSome_of_suffix (List.suffix_append a _) hatt
  obtain ⟨caps, hfind⟩ := Option.isSome_iff_exists.mp hfindS
  have hgood : GoodCaps (a ++ (lv0 ++ (natDigits M0 ++ '.' :: (natDigits m0 ++ '.' ::
      (natDigits p0 ++ b))))) caps := findMatch_caps hfind
  have hbound : TWBound (2 ^ 32) (a ++ (lv0 ++ (natDigits M0 ++ '.' :: (natDigits m0 ++ '.' ::
      (natDigits p0 ++ b))))) := by
    have h32 : (0 : Nat) < 2 ^ 32 := by norm_num
    refine twBound_append_neg h32 ha ?_
    have pb : TWBound (2 ^ 32) b := twBound_all_neg h32 hb
    have pC : TWBound (2 ^ 32) (natDigits p0 ++ b) := by
      refine twBound_append_digits h32 hC2 ?_ hbh pb
      rw [digitVal_natDigits]
      exact hp
    have pC2 : TWBound (2 ^ 32) ('.' :: (natDigits p0 ++ b)) :=
      twBound_cons_neg h32 (by decide) pC
    have pB : TWBound (2 ^ 32) (natDigits m0 ++ '.' :: (natDigits p0 ++ b)) := by
      refine twBound_append_digits h32 hB2 ?_
        (fun c hc => by injection hc with h2; subst h2; decide) pC2
      rw [digitVal_natDigits]
      exact hm
    have pB2 : TWBound (2 ^ 32) ('.' :: (natDigits m0 ++ '.' :: (natDigits p0 ++ b))) :=
      twBound_cons_neg h32 (by decide) pB
    have pA : TWBound (2 ^ 32)
        (natDigits M0 ++ '.' :: (natDigits m0 ++ '.' :: (natDigits p0 ++ b))) := by
      refine twBound_append_digits h32 hA2 ?_
        (fun c hc => by injection hc with h2; subst h2; decide) pB2
      rw [digitVal_natDigits]
      exact hM
    rcases hlv with h0 | h0 <;> subst h0
    · exact pA
    · exact twBound_cons_neg h32 (by decide) pA
  obtain ⟨⟨hne1, hrun1⟩, ⟨hne2, hrun2⟩, ⟨hne3, hrun3⟩, hex⟩ := hgood
  have hcapval : ∀ d : List Char, d ≠ [] →
      DigitRunAt (a ++ (lv0 ++ (natDigits M0 ++ '.' :: (natDigits m0 ++ '.' ::
        (natDigits p0 ++ b))))) d →
      parseUint32 d = some (digitVal d) := by
    intro d hdn hrun
    obtain ⟨u, hu, hd⟩ := hrun
    refine parseUint32_of_digits hdn ?_ ?_
    · intro c hc
      rw [hd] at hc
      exact List.mem_takeWhile_imp hc
    · rw [hd]
      exact hbound u hu
  have e1 : parseUint32 caps.majorCap = some (digitVal caps.majorCap) := hcapval _ hne1 hrun1
  have e2 : parseUint32 caps.minorCap = some (digitVal caps.minorCap) := hcapval _ hne2 hrun2
  have e3 : parseUint32 caps.patchCap = some (digitVal caps.patchCap) := hcapval _ hne3 hrun3
  unfold ParseSemVer
  rw [hfind]
  cases hec : caps.extCap with
  | none =>
    simp only [e1, e2, e3, hec]
    exact ⟨_, rfl⟩
  | some x =>
    obtain ⟨br, ds, hs⟩ := x
    obtain ⟨hdsn, hdsr⟩ := hex br ds hs hec
    have e4 : parseUint32 ds = some (digitVal ds) := hcapval _ hdsn hdsr
    simp only [e1, e2, e3, hec, e4]
    exact ⟨_, rfl⟩

def svC10 : SemVer := ⟨[], [ 'v' ], 1, 22, 3, none⟩

theorem c10_witness :
    ∃ v, ParseSemVer (("release: ").data ++ Print svC10 false ++ (" (done)").data) = .ok v :=
  c10_unanchored (("release: ").data) ((" (done)").data) svC10
    (by decide) (by decide) (by decide) rfl

end GhSemver
